import Mathlib

set_option maxRecDepth 4000
set_option maxHeartbeats 1000000

/-!
Verification of the RLCP image-conversion pipeline (src/src/index.ts).

Modelling conventions:
* Every path is kept in the canonical form it has relative to the process
  working directory, so `path.resolve(process.cwd(), p)` is the identity and
  `path.relative(process.cwd(), p)` is `p`.  Node's segment-based path
  functions (`join`, `relative`, `dirname`, `basename`, `extname`) are
  implemented below over lists of `/`-separated segments.
* The filesystem is a set of existing file paths (`List String`) plus a
  separate, never-mutated set of directory paths used only for the input- and
  working-directory existence checks (`fs.pathExists` on a directory).
* `sharp(...).toFile`, `fs.move` and the final rename are the three fallible
  executor steps; their success or failure is an input of the model
  (`ConvOutcome`), one per candidate.
-/

namespace RLCP

/-! ### Path segments -/

/-- Split a character list at every `/` (an accumulator-based splitter whose
equations reduce definitionally, unlike `String.splitOn`). -/
def splitSegsAux (cur : List Char) : List Char → List (List Char)
  | [] => [cur.reverse]
  | c :: rest =>
    if c = '/' then cur.reverse :: splitSegsAux [] rest
    else splitSegsAux (c :: cur) rest

/-- The normalized segments of a path: split on `/`, dropping empty and `.`
segments (Node's `path` functions normalize these away). -/
def segsOf (p : String) : List (List Char) :=
  (splitSegsAux [] p.data).filter (fun s => !(s == []) && !(s == ['.']))

/-- Join segments with `/` between them. -/
def joinChars : List (List Char) → List Char
  | [] => []
  | [s] => s
  | s :: rest => s ++ '/' :: joinChars rest

def ofSegs (l : List (List Char)) : String := ⟨joinChars l⟩

/-- Drop the longest common prefix of two segment lists
(the core of `path.relative`). -/
def dropCommon : List (List Char) → List (List Char) →
    List (List Char) × List (List Char)
  | a :: as, b :: bs => if a == b then dropCommon as bs else (a :: as, b :: bs)
  | as, bs => (as, bs)

/-- `path.relative(base, tgt)` for canonical (cwd-relative) paths: strip the
common prefix, then one `..` per remaining base segment. -/
def relP (base tgt : String) : String :=
  let p := dropCommon (segsOf base) (segsOf tgt)
  ofSegs (p.1.map (fun _ => ['.', '.']) ++ p.2)

/-- `path.join a b` for canonical paths. -/
def joinP (a b : String) : String := ofSegs (segsOf a ++ segsOf b)

/-- Whether `p` lies strictly below directory `d`; this is what the glob
pattern `path.join(inputDir, "**/*.{png,jpg,jpeg,webp}")` requires of the
directory part of a match. -/
def underDirB (d p : String) : Bool :=
  let ds := segsOf d
  let ps := segsOf p
  ds.isPrefixOf ps && decide (ds.length < ps.length)

/-! ### Extensions (`path.extname` / `path.basename`) -/

/-- Find the first `.` of a (reversed) character list:
`some (after, before)` where the input is `after ++ '.' :: before`. -/
def splitAtFirstDot : List Char → Option (List Char × List Char)
  | [] => none
  | c :: rest =>
    if c = '.' then some ([], rest)
    else
      match splitAtFirstDot rest with
      | none => none
      | some (a, b) => some (c :: a, b)

/-- Split a base name into stem and extension following Node's rules: the
extension starts at the last `.`, except that a `.` at position 0 of the base
name does not count (so `.png` has no extension). -/
def extSplitBase (b : List Char) : List Char × List Char :=
  match splitAtFirstDot b.reverse with
  | none => (b, [])
  | some (afterRev, beforeRev) =>
    if beforeRev = [] then (b, [])
    else (beforeRev.reverse, '.' :: afterRev.reverse)

def stemOfBase (b : List Char) : List Char := (extSplitBase b).1

def extOfBase (b : List Char) : List Char := (extSplitBase b).2

/-- The base (last) segment of a path. -/
def lastSegOf (p : String) : List Char := ((segsOf p).getLast?).getD []

/-- `path.extname p` as a character list (including the dot). -/
def extnameP (p : String) : List Char := extOfBase (lastSegOf p)

/-- Does `p` carry one of the four extensions matched by the discovery glob
`**/*.{png,jpg,jpeg,webp}`? -/
def hasImageExt (p : String) : Bool :=
  let e := extnameP p
  e == ".png".data || e == ".jpg".data || e == ".jpeg".data || e == ".webp".data

/-! ### Target formats -/

/-- The four accepted values of `preferred_type`. -/
inductive Fmt | png | jpeg | jpg | webp
deriving DecidableEq, Repr

def Fmt.ext : Fmt → List Char
  | .png => "png".data
  | .jpeg => "jpeg".data
  | .jpg => "jpg".data
  | .webp => "webp".data

/-- `finalNewPath`: the candidate's own directory, its base name without
extension, and the target extension.  (The source's `jpg` special case
produces the same string as the general branch.) -/
def finalPathOf (f : Fmt) (p : String) : String :=
  let segs := segsOf p
  let base := (segs.getLast?).getD []
  ofSegs (segs.dropLast ++ [stemOfBase base ++ '.' :: f.ext])

/-- The temporary encode destination `` `${absoluteFilePath}.temp` ``. -/
def tempOf (c : String) : String := c ++ ".temp"

/-! ### The reference rewriter (`updateReferences` / `escapeRegExp`)

The source builds, for each rule, the regular expression
`(?<![\w\-.])(?<![\w\-.]\/)<escaped old>` with flag `g` and applies
`String.replace`.  We embed this directly: a left-to-right scan that, at each
position, checks the two negative lookbehinds against the two preceding
characters of the *original* string and then the literal `old`; on a match it
emits the replacement and resumes after the match, otherwise it copies one
character.  (`escapeRegExp` makes the old path literal, so the pattern after
the lookbehinds is exactly the literal string.)  The scan also records the
start index of every replaced occurrence. -/

/-- `\w` of a JavaScript regex (no `u` flag): ASCII letters, digits, `_`. -/
def isWordChar (c : Char) : Bool :=
  (('a' ≤ c && c ≤ 'z') || ('A' ≤ c && c ≤ 'Z') || ('0' ≤ c && c ≤ '9') || c = '_')

/-- The character class `[\w\-.]` used by both lookbehinds. -/
def isBoundaryChar (c : Char) : Bool := isWordChar c || c = '-' || c = '.'

/-- The lookbehind context at a position: the immediately preceding character
and the one before it (heads of the reversed prefix). -/
def ctxOf (rp : List Char) : Option Char × Option Char :=
  (rp.head?, rp.tail.head?)

/-- Both negative lookbehinds hold: the previous character is not in
`[\w\-.]`, and it is not a `/` whose own predecessor is in `[\w\-.]`. -/
def boundaryOk : Option Char × Option Char → Bool
  | (none, _) => true
  | (some a, none) => !isBoundaryChar a
  | (some a, some b) => !isBoundaryChar a && !(a = '/' && isBoundaryChar b)

/-- One global-regex replacement pass.  `rp` is the reversed prefix of the
original string already scanned (the lookbehinds only inspect its first two
characters); `skip` is the number of characters of a just-replaced occurrence
that remain to be consumed (the scan resumes after a match, but the consumed
characters stay part of the lookbehind context, which always holds original
characters — exactly the semantics of `String.replace` with a `g` regex).
Returns the rewritten text and the start index (`rp.length`) of every
replaced occurrence. -/
def replGo (old nw : List Char) (rp : List Char) (skip : Nat) :
    List Char → List Char × List Nat
  | [] => ([], [])
  | c :: rest =>
    match skip with
    | n + 1 => replGo old nw (c :: rp) n rest
    | 0 =>
      if old ≠ [] ∧ boundaryOk (ctxOf rp) = true ∧ old.isPrefixOf (c :: rest) then
        let res := replGo old nw (c :: rp) (old.length - 1) rest
        (nw ++ res.1, rp.length :: res.2)
      else
        let res := replGo old nw (c :: rp) 0 rest
        (c :: res.1, res.2)

/-- The replaced text of one rule application
(`content.replace(regex, newRel)`). -/
def applyRule (old nw content : String) : String :=
  ⟨(replGo old.data nw.data [] 0 content.data).1⟩

/-- The start indices of the occurrences replaced by one rule application. -/
def replPositions (old content : String) : List Nat :=
  (replGo old.data [] [] 0 content.data).2

/-- Specification-side predicate on character lists: position `i` of `s`
starts an occurrence of `old` that satisfies the boundary rule (not preceded
by a character of `[\w\-.]`, nor by a `/` itself preceded by one). -/
def qualifiesAtL (old s : List Char) (i : Nat) : Bool :=
  !(old == []) && boundaryOk (ctxOf (s.take i).reverse)
    && old.isPrefixOf (s.drop i)

/-- `qualifiesAtL` on strings. -/
def qualifiesAt (old content : String) (i : Nat) : Bool :=
  qualifiesAtL old.data content.data i

/-- A replacement rule: `{ oldRel, newRel }` in the source. -/
structure Rule where
  oldRel : String
  newRel : String
deriving DecidableEq, Repr

/-- `replacements.sort((a, b) => b.oldRel.length - a.oldRel.length)` —
a stable sort by old-path length, descending (ECMAScript `Array.sort` is
stable and merge sort is a stable sort). -/
def sortRules (rs : List Rule) : List Rule :=
  rs.mergeSort (fun a b => decide (b.oldRel.length ≤ a.oldRel.length))

/-- Apply every rule of the (sorted) table to one file's content, in order.
(The source's `regex.test` pre-check does not change the resulting text.) -/
def rewriteContent (rs : List Rule) (content : String) : String :=
  (sortRules rs).foldl (fun c r => applyRule r.oldRel r.newRel c) content

/-! ### Lock store (`rlcp.lock`, a JS object `Record<string, string>`)

A JS object keeps insertion order and has at most one entry per key; we model
it as an association list with first-match lookup and
update-in-place-or-append assignment. -/

def lookupA : List (String × String) → String → Option String
  | [], _ => none
  | (k, v) :: t, key => if k = key then some v else lookupA t key

def upsertA : List (String × String) → String → String → List (String × String)
  | [], k, v => [(k, v)]
  | (k', v') :: t, k, v =>
    if k' = k then (k, v) :: t else (k', v') :: upsertA t k v

/-- `Object.values(lockData.conversions)`. -/
def valuesOf (l : List (String × String)) : List String := l.map Prod.snd

/-! ### World state and configuration -/

/-- The raw contents of `rlcp.config.json` before validation. -/
structure RawConfig where
  input : Option String
  output : Option String
  file_size : Option String
  preferred_type : Option String
  working_directory : Option String

/-- A validated, fully-determined configuration for one run.  `blacklisted`
abstracts the external glob matcher applied to the `blacklists` patterns. -/
structure Cfg where
  input : String
  output : String
  blacklisted : String → Bool
  fmt : Fmt
  quality : Nat
  workingDir : Option String

/-- Persistent state visible to the process: existing files, existing
directories (consulted only by the input/working-directory checks and never
mutated by the pipeline), the lock file, `.gitignore`, the text files of the
working tree, and the configuration file. -/
structure World where
  fs : List String
  dirs : List String
  lockFile : List (String × String)
  gitignore : String
  textFiles : List (String × String)
  configFile : Option RawConfig

/-- Set-like insert on the file list. -/
def fsIns (p : String) (fs : List String) : List String :=
  if p ∈ fs then fs else p :: fs

/-- Deletion on the file list (`fs.move` removes its source; a rename removes
the temp file). -/
def fsRem (p : String) (fs : List String) : List String :=
  fs.filter (fun q => q ≠ p)

/-! ### Decision engine and executor -/

/-- The five per-candidate outcomes: the four dispositions of the decision
engine, with `ConvertNow` split by whether the executor succeeded. -/
inductive Disp | converted | failed | skipAlready | skipGenerated | skipBackup
deriving DecidableEq, Repr

/-- Success or failure of the three fallible executor steps for one
`ConvertNow` candidate: encode to `<original>.temp`, move the original to the
backup path, rename the temp file to the final path. -/
inductive ConvOutcome | ok | encodeFail | moveFail | renameFail
deriving DecidableEq, Repr

/-- Mutable state threaded through the candidate loop. -/
structure LoopState where
  fs : List String
  lock : List (String × String)
  repls : List Rule
  succ : Nat
  fail : Nat
  log : List (String × Disp)
deriving DecidableEq, Repr

/-- `originalFileDest`: the candidate path rewritten under the output root,
preserving the sub-path under the input root. -/
def backupPath (cfg : Cfg) (c : String) : String :=
  joinP cfg.output (relP cfg.input c)

/-- `addReplacement(originalFile, targetFile, inputDir)`: one rule with both
sides relative to the input root and, when the path as discovered differs
from its input-root-relative form, a second rule in as-discovered /
cwd-relative form. -/
def mkRepl (inputDir origFile target : String) : List Rule :=
  { oldRel := relP inputDir origFile, newRel := relP inputDir target } ::
    (if origFile ≠ relP inputDir origFile
      then [{ oldRel := origFile, newRel := target }] else [])

/-- The part of the loop body after the lock-entry check: generated-file
check against the load-time value snapshot `vals`, backup-exists check,
then the three-step conversion with its `try`/`catch`. -/
def stepRest (cfg : Cfg) (vals : List String) (oc : String → ConvOutcome)
    (st : LoopState) (c : String) : LoopState :=
  let backup := backupPath cfg c
  let fnl := finalPathOf cfg.fmt c
  if c ∈ vals then
    { st with log := st.log ++ [(c, .skipGenerated)] }
  else if backup ∈ st.fs ∧ fnl ∈ st.fs then
    { st with
        repls := st.repls ++ mkRepl cfg.input c fnl
        lock := upsertA st.lock c fnl
        log := st.log ++ [(c, .skipBackup)] }
  else
    match oc c with
    | .ok =>
      { st with
          fs := fsIns fnl (fsRem (tempOf c) (fsIns backup (fsRem c (fsIns (tempOf c) st.fs))))
          repls := st.repls ++ mkRepl cfg.input c fnl
          lock := upsertA st.lock c fnl
          succ := st.succ + 1
          log := st.log ++ [(c, .converted)] }
    | .encodeFail =>
      { st with fail := st.fail + 1, log := st.log ++ [(c, .failed)] }
    | .moveFail =>
      { st with
          fs := fsIns (tempOf c) st.fs
          fail := st.fail + 1
          log := st.log ++ [(c, .failed)] }
    | .renameFail =>
      { st with
          fs := fsIns backup (fsRem c (fsIns (tempOf c) st.fs))
          fail := st.fail + 1
          log := st.log ++ [(c, .failed)] }

/-- One iteration of the candidate loop: the lock-entry check (a JS truthiness
test, so an empty-string target counts as no entry), then `stepRest`. -/
def stepCandidate (cfg : Cfg) (vals : List String) (oc : String → ConvOutcome)
    (st : LoopState) (c : String) : LoopState :=
  match lookupA st.lock c with
  | some t =>
    if t ≠ "" ∧ t ∈ st.fs then
      { st with
          repls := st.repls ++ mkRepl cfg.input c t
          log := st.log ++ [(c, .skipAlready)] }
    else stepRest cfg vals oc st c
  | none => stepRest cfg vals oc st c

/-- The candidate loop. -/
def runLoop (cfg : Cfg) (vals : List String) (oc : String → ConvOutcome)
    (st : LoopState) (cs : List String) : LoopState :=
  cs.foldl (stepCandidate cfg vals oc) st

/-! ### Discovery, `.gitignore`, reference rewriting over files -/

/-- Is `p` a candidate: below the input root, carrying a supported image
extension, and not excluded by the blacklist patterns? -/
def isCandB (cfg : Cfg) (p : String) : Bool :=
  underDirB cfg.input p && hasImageExt p && !cfg.blacklisted p

/-- The discovery collaborator: the files below the input root carrying a
supported image extension and not excluded by the blacklist patterns. -/
def discover (cfg : Cfg) (fs : List String) : List String :=
  fs.filter (isCandB cfg)

/-- Structural splitter for `.gitignore` lines. -/
def splitLinesAux (cur : List Char) : List Char → List (List Char)
  | [] => [cur.reverse]
  | c :: rest =>
    if c = '\n' then cur.reverse :: splitLinesAux [] rest
    else splitLinesAux (c :: cur) rest

def isWS (c : Char) : Bool := c = ' ' || c = '\t' || c = '\r' || c = '\n'

/-- `line.trim()`. -/
def trimChars (l : List Char) : List Char :=
  ((l.dropWhile isWS).reverse.dropWhile isWS).reverse

/-- `ensureGitIgnore`: add the output directory to `.gitignore` unless some
trimmed line already names it (in one of the four accepted spellings). -/
def ensureGitIgnoreContent (content outputDir : String) : String :=
  let lines := (splitLinesAux [] content.data).map trimChars
  let isIgnored := lines.any (fun line =>
    line == outputDir.data ||
    line == '/' :: outputDir.data ||
    line == outputDir.data ++ ['/'] ||
    line == '/' :: outputDir.data ++ ['/'])
  if isIgnored then content
  else if content.data == [] || (content.data.getLast?) = some '\n' then
    content ++ outputDir ++ "\n"
  else
    content ++ "\n" ++ outputDir ++ "\n"

/-- The extension allow-list of `updateReferences`'s glob. -/
def hasTextExt (p : String) : Bool :=
  let e := extnameP p
  [".html", ".js", ".jsx", ".ts", ".tsx", ".css", ".scss", ".json", ".md"].any
    (fun s => e == s.data)

/-- The glob's ignore patterns `**/node_modules/**`, `.git/**`, `**/dist/**`,
`**/build/**`. -/
def inIgnoredDir (p : String) : Bool :=
  let dirs := (segsOf p).dropLast
  dirs.any (fun s => s == "node_modules".data || s == "dist".data || s == "build".data)
    || (segsOf p).head? = some ".git".data

/-- Rewrite each enumerated text file with the full rule table. -/
def rewriteFiles (rs : List Rule) (files : List (String × String)) :
    List (String × String) :=
  files.map (fun f =>
    if hasTextExt f.1 && !inIgnoredDir f.1 then (f.1, rewriteContent rs f.2) else f)

/-! ### The whole run (`main`) -/

inductive RunOutcome
  | completed
  | noImages
  | fatalConfigMissing
  | fatalConfigInvalid
  | fatalInputMissing
  | promptsPending
deriving DecidableEq, Repr

/-- The observable result of one run: the final world plus the counters,
per-candidate log, final replacement table, and which of the tail stages
(lock save, table rebuild, reference rewriting) actually ran. -/
structure RunResult where
  world : World
  outcome : RunOutcome
  succ : Nat
  fail : Nat
  log : List (String × Disp)
  repls : List Rule
  lockSaved : Bool
  tableRebuilt : Bool
  refsUpdated : Bool

/-- `main` after `.gitignore` maintenance: input-directory check, discovery,
early return on zero candidates, the candidate loop, the rebuild of the
replacement table from the final lock state, the unconditional lock save, and
(when configured and possible) the reference rewrite. -/
def runMainCore (cfg : Cfg) (w : World) (oc : String → ConvOutcome) : RunResult :=
  if cfg.input ∈ w.dirs then
    let vals := valuesOf w.lockFile
    let cs := discover cfg w.fs
    if cs = [] then
      ⟨w, .noImages, 0, 0, [], [], false, false, false⟩
    else
      let st := runLoop cfg vals oc ⟨w.fs, w.lockFile, [], 0, 0, []⟩ cs
      let repls := st.lock.flatMap (fun e => mkRepl cfg.input e.1 e.2)
      let w2 := { w with fs := st.fs, lockFile := st.lock }
      match cfg.workingDir with
      | some wd =>
        if repls ≠ [] ∧ wd ∈ w2.dirs then
          ⟨{ w2 with textFiles := rewriteFiles repls w2.textFiles },
            .completed, st.succ, st.fail, st.log, repls, true, true, true⟩
        else
          ⟨w2, .completed, st.succ, st.fail, st.log, repls, true, true, false⟩
      | none =>
        ⟨w2, .completed, st.succ, st.fail, st.log, repls, true, true, false⟩
  else
    ⟨w, .fatalInputMissing, 0, 0, [], [], false, false, false⟩

/-- One full run with a validated configuration: `.gitignore` maintenance
happens first (before the input-directory check), exactly as in the source. -/
def runMain (cfg : Cfg) (w : World) (oc : String → ConvOutcome) : RunResult :=
  runMainCore cfg
    { w with gitignore := ensureGitIgnoreContent w.gitignore cfg.output } oc

/-- `loadConfig`'s validation: `input`/`output` must be present and truthy,
and `file_size` / `preferred_type`, when present, must be among the accepted
values. -/
def validRaw (raw : RawConfig) : Bool :=
  (match raw.input with | some i => !(i == "") | none => false)
    && (match raw.output with | some o => !(o == "") | none => false)
    && (match raw.file_size with
        | some s => s == "small" || s == "smallest"
        | none => true)
    && (match raw.preferred_type with
        | some s => s == "png" || s == "jpeg" || s == "jpg" || s == "webp"
        | none => true)

def parseFmt (s : String) : Fmt :=
  if s = "png" then .png else if s = "jpeg" then .jpeg
  else if s = "jpg" then .jpg else .webp

/-- A run from the raw configuration file, as `main` performs it: fatal setup
errors for a missing or invalid configuration (before any mutation), then
`.gitignore` maintenance, then the fatal input-directory check.  Interactive
prompting for absent optional settings is an external collaborator; a run
that would need it stops with `promptsPending`. -/
def runFromRaw (bl : String → Bool) (w : World) (oc : String → ConvOutcome) :
    RunResult :=
  match w.configFile with
  | none => ⟨w, .fatalConfigMissing, 0, 0, [], [], false, false, false⟩
  | some raw =>
    if validRaw raw then
      match raw.input, raw.output with
      | some i, some o =>
        let w1 := { w with gitignore := ensureGitIgnoreContent w.gitignore o }
        if i ∈ w.dirs then
          match raw.preferred_type, raw.file_size, raw.working_directory with
          | some ft, some sz, some wd =>
            runMainCore
              { input := i, output := o, blacklisted := bl, fmt := parseFmt ft,
                quality := if sz = "smallest" then 60 else 80,
                workingDir := some wd } w1 oc
          | _, _, _ => ⟨w1, .promptsPending, 0, 0, [], [], false, false, false⟩
        else ⟨w1, .fatalInputMissing, 0, 0, [], [], false, false, false⟩
      | _, _ => ⟨w, .fatalConfigInvalid, 0, 0, [], [], false, false, false⟩
    else ⟨w, .fatalConfigInvalid, 0, 0, [], [], false, false, false⟩

/-! ### Concrete fixtures used by witnesses and counterexamples -/

/-- A plain configuration: input `in`, backup output `out`, target `webp`. -/
def cfgW6 : Cfg := ⟨"in", "out", fun _ => false, .webp, 80, none⟩

/-- A world with one fresh candidate and a lock entry of an earlier run whose
source file no longer exists anywhere under the input root. -/
def wC6 : World :=
  ⟨["in/a.png"], ["in"], [("gone.png", "gone.webp")], "", [], none⟩

def cfgW10 : Cfg := ⟨"in", "out", fun _ => false, .webp, 80, some "."⟩

/-- A world with no discoverable image but a nonempty loaded lock state. -/
def wC10 : World :=
  ⟨["readme.txt"], ["in", "."], [("old/a.png", "old/a.webp")], "",
    [("index.html", "see old/a.png")], none⟩

/-- A world whose configuration is valid but whose input directory is
missing, with an output directory not yet ignored. -/
def wC9 : World :=
  ⟨[], [], [], "", [],
    some ⟨some "in", some "out", some "small", some "webp", some "."⟩⟩

/-- A world with no configuration file at all. -/
def wC9m : World :=
  ⟨["x.png"], ["in"], [("a", "b")], "keep", [("f.md", "hi")], none⟩

/-- A configuration whose output root lies inside the input root. -/
def cfgA : Cfg := ⟨"assets", "assets/backup", fun _ => false, .webp, 80, none⟩

def wA : World := ⟨["assets/a.png"], ["assets"], [], "", [], none⟩

/-- Disjoint roots; used with a stale lock entry whose target collides with a
temp path. -/
def cfgB : Cfg := ⟨"in", "out", fun _ => false, .webp, 80, none⟩

def wB : World :=
  ⟨["in/X.png", "in/A.png", "in/A.png.temp"], ["in"],
    [("in/X.png", "in/A.png.temp")], "", [], none⟩

/-- Disjoint roots and an empty initial lock: the amended idempotence
hypotheses. -/
def cfgC1 : Cfg := ⟨"assets", "backup", fun _ => false, .webp, 80, none⟩

def wC1 : World :=
  ⟨["assets/icons/logo.png"], ["assets"], [], "", [], none⟩

/-! ## Basic lemmas about the lock store -/

theorem lookupA_upsertA_self (l : List (String × String)) (k v : String) :
    lookupA (upsertA l k v) k = some v := by
  induction l with
  | nil => simp [upsertA, lookupA]
  | cons e t ih =>
    by_cases h : e.1 = k
    · simp [upsertA, h, lookupA]
    · simp [upsertA, h, lookupA, ih]

theorem lookupA_upsertA_ne (l : List (String × String)) (k v k' : String)
    (h : k' ≠ k) : lookupA (upsertA l k v) k' = lookupA l k' := by
  induction l with
  | nil => simp [upsertA, lookupA, Ne.symm h]
  | cons e t ih =>
    obtain ⟨k0, v0⟩ := e
    by_cases he : k0 = k
    · subst he
      simp [upsertA, lookupA, Ne.symm h]
    · simp [upsertA, he, lookupA, ih]

/-! ## C2 — the lock-entry check -/

/-- C2: for a candidate with a lock entry whose target exists on disk, the
step classifies `SkipAlreadyConverted`, registers the replacement rules for
`c -> LockState[c]`, and touches nothing else (in particular the lock and the
filesystem); if the target is missing on disk, the step is exactly the
fall-through `stepRest`, i.e. the generated-file, backup-exists and convert
checks.  (`t ≠ ""` reflects the JS truthiness test `if (conversions[file])`;
a recorded empty-string target is treated as no entry.) -/
theorem lock_entry_check (cfg : Cfg) (vals : List String)
    (oc : String → ConvOutcome) (st : LoopState) (c t : String)
    (hl : lookupA st.lock c = some t) (hne : t ≠ "") :
    (t ∈ st.fs →
      stepCandidate cfg vals oc st c =
        { st with repls := st.repls ++ mkRepl cfg.input c t,
                  log := st.log ++ [(c, .skipAlready)] }) ∧
    (t ∉ st.fs → stepCandidate cfg vals oc st c = stepRest cfg vals oc st c) := by
  constructor
  · intro hmem
    simp [stepCandidate, hl, hne, hmem]
  · intro hmem
    simp [stepCandidate, hl, hmem]

theorem lock_entry_check_witness :
    lookupA [("a.png", "a.webp")] "a.png" = some "a.webp" ∧
    "a.webp" ≠ "" ∧
    stepCandidate ⟨"in", "out", fun _ => false, .webp, 80, none⟩ [] (fun _ => .ok)
        ⟨["a.webp"], [("a.png", "a.webp")], [], 0, 0, []⟩ "a.png" =
      { fs := ["a.webp"], lock := [("a.png", "a.webp")],
        repls := mkRepl "in" "a.png" "a.webp", succ := 0, fail := 0,
        log := [("a.png", .skipAlready)] } := by
  refine ⟨by decide, by decide, ?_⟩
  have h := (lock_entry_check ⟨"in", "out", fun _ => false, .webp, 80, none⟩ []
    (fun _ => .ok) ⟨["a.webp"], [("a.png", "a.webp")], [], 0, 0, []⟩
    "a.png" "a.webp" (by decide) (by decide)).1 (by decide)
  simpa using h

/-! ## C3 — the backup-exists (self-healing) disposition -/

/-- C3: a candidate with no valid lock entry, not recorded as a generated
file, whose backup path (the candidate path rewritten under the output root,
preserving the sub-path below the input root) and final target path both
exist on disk, is classified `SkipBackupExists`: the replacement rules are
registered, no re-encoding happens (filesystem and both counters are
untouched), and the lock is repaired to `LockState[c] = finalPath`. -/
theorem skip_backup_exists (cfg : Cfg) (vals : List String)
    (oc : String → ConvOutcome) (st : LoopState) (c : String)
    (hlock : ∀ t, lookupA st.lock c = some t → t = "" ∨ t ∉ st.fs)
    (hgen : c ∉ vals)
    (hb : backupPath cfg c ∈ st.fs) (hf : finalPathOf cfg.fmt c ∈ st.fs) :
    stepCandidate cfg vals oc st c =
      { st with
          repls := st.repls ++ mkRepl cfg.input c (finalPathOf cfg.fmt c),
          lock := upsertA st.lock c (finalPathOf cfg.fmt c),
          log := st.log ++ [(c, .skipBackup)] } ∧
    lookupA (stepCandidate cfg vals oc st c).lock c
      = some (finalPathOf cfg.fmt c) := by
  have hrest : stepRest cfg vals oc st c =
      { st with
          repls := st.repls ++ mkRepl cfg.input c (finalPathOf cfg.fmt c),
          lock := upsertA st.lock c (finalPathOf cfg.fmt c),
          log := st.log ++ [(c, .skipBackup)] } := by
    simp [stepRest, hgen, hb, hf]
  have hstep : stepCandidate cfg vals oc st c = stepRest cfg vals oc st c := by
    cases hcase : lookupA st.lock c with
    | none => simp [stepCandidate, hcase]
    | some t =>
      rcases hlock t hcase with h | h
      · subst h
        simp [stepCandidate, hcase]
      · simp [stepCandidate, hcase, h]
  refine ⟨hstep.trans hrest, ?_⟩
  rw [hstep, hrest]
  exact lookupA_upsertA_self _ _ _

theorem skip_backup_exists_witness :
    stepCandidate ⟨"in", "out", fun _ => false, .webp, 80, none⟩ [] (fun _ => .ok)
        ⟨["in/a.png", "out/a.png", "in/a.webp"], [], [], 0, 0, []⟩ "in/a.png" =
      { fs := ["in/a.png", "out/a.png", "in/a.webp"],
        lock := [("in/a.png", "in/a.webp")],
        repls := mkRepl "in" "in/a.png" "in/a.webp", succ := 0, fail := 0,
        log := [("in/a.png", .skipBackup)] } ∧
    lookupA [("in/a.png", "in/a.webp")] "in/a.png" = some "in/a.webp" := by
  have h := skip_backup_exists ⟨"in", "out", fun _ => false, .webp, 80, none⟩ []
    (fun _ => .ok) ⟨["in/a.png", "out/a.png", "in/a.webp"], [], [], 0, 0, []⟩
    "in/a.png" (by intro t ht; simp [lookupA] at ht) (by decide)
    (by decide) (by decide)
  have h1 := h.1
  refine ⟨?_, by decide⟩
  rw [h1]
  decide

/-! ## C4 — generated artifacts are untouched -/

/-- C4: a candidate that appears among the load-time values of the lock state
(the snapshot `lockValues` taken before the loop) and has no valid lock entry
as a key is classified `SkipGeneratedArtifact`, and the step changes nothing:
no replacement rule, no conversion, no filesystem effect, no lock change. -/
theorem skip_generated_artifact (cfg : Cfg) (vals : List String)
    (oc : String → ConvOutcome) (st : LoopState) (c : String)
    (hlock : ∀ t, lookupA st.lock c = some t → t = "" ∨ t ∉ st.fs)
    (hgen : c ∈ vals) :
    stepCandidate cfg vals oc st c =
      { st with log := st.log ++ [(c, .skipGenerated)] } := by
  have hrest : stepRest cfg vals oc st c =
      { st with log := st.log ++ [(c, .skipGenerated)] } := by
    simp [stepRest, hgen]
  cases hcase : lookupA st.lock c with
  | none => rw [stepCandidate, hcase, hrest]
  | some t =>
    rcases hlock t hcase with h | h
    · subst h
      simp [stepCandidate, hcase, hrest]
    · simp [stepCandidate, hcase, h, hrest]

theorem skip_generated_artifact_witness :
    stepCandidate ⟨"in", "out", fun _ => false, .webp, 80, none⟩ ["in/a.webp"]
        (fun _ => .ok) ⟨["in/a.webp"], [("in/a.png", "in/a.webp")], [], 0, 0, []⟩
        "in/a.webp" =
      { fs := ["in/a.webp"], lock := [("in/a.png", "in/a.webp")], repls := [],
        succ := 0, fail := 0, log := [("in/a.webp", .skipGenerated)] } := by
  have h := skip_generated_artifact ⟨"in", "out", fun _ => false, .webp, 80, none⟩
    ["in/a.webp"] (fun _ => .ok)
    ⟨["in/a.webp"], [("in/a.png", "in/a.webp")], [], 0, 0, []⟩ "in/a.webp"
    (by intro t ht; simp [lookupA] at ht) (by decide)
  simpa using h

/-! ## C5 — per-candidate error atomicity -/

/-- C5: for a `ConvertNow` candidate, a failure of any of the three executor
steps is absorbed by that candidate alone: the failure counter increments,
the success counter, the replacement table and the whole lock state are
untouched, the candidate is logged as failed, and the loop continues with the
next candidate. -/
theorem convert_failure_atomic (cfg : Cfg) (vals : List String)
    (oc : String → ConvOutcome) (st : LoopState) (c : String)
    (rest : List String)
    (hlock : ∀ t, lookupA st.lock c = some t → t = "" ∨ t ∉ st.fs)
    (hgen : c ∉ vals)
    (hnb : ¬(backupPath cfg c ∈ st.fs ∧ finalPathOf cfg.fmt c ∈ st.fs))
    (hoc : oc c ≠ .ok) :
    (stepCandidate cfg vals oc st c).lock = st.lock ∧
    (stepCandidate cfg vals oc st c).fail = st.fail + 1 ∧
    (stepCandidate cfg vals oc st c).succ = st.succ ∧
    (stepCandidate cfg vals oc st c).repls = st.repls ∧
    (stepCandidate cfg vals oc st c).log = st.log ++ [(c, .failed)] ∧
    runLoop cfg vals oc st (c :: rest)
      = runLoop cfg vals oc (stepCandidate cfg vals oc st c) rest := by
  have hstep : stepCandidate cfg vals oc st c = stepRest cfg vals oc st c := by
    cases hcase : lookupA st.lock c with
    | none => rw [stepCandidate, hcase]
    | some t =>
      rcases hlock t hcase with h | h
      · subst h
        simp [stepCandidate, hcase]
      · simp [stepCandidate, hcase, h]
  rw [hstep]
  refine ⟨?_, ?_, ?_, ?_, ?_, by simp [runLoop, hstep]⟩ <;>
    · cases hcase : oc c <;> simp [stepRest, hgen, hnb, hcase] <;>
        simp [hcase] at hoc

theorem convert_failure_atomic_witness :
    (stepCandidate ⟨"in", "out", fun _ => false, .webp, 80, none⟩ []
        (fun _ => .renameFail) ⟨["in/a.png"], [], [], 0, 0, []⟩ "in/a.png").lock
      = [] ∧
    (stepCandidate ⟨"in", "out", fun _ => false, .webp, 80, none⟩ []
        (fun _ => .renameFail) ⟨["in/a.png"], [], [], 0, 0, []⟩ "in/a.png").fail
      = 1 := by
  have h := convert_failure_atomic ⟨"in", "out", fun _ => false, .webp, 80, none⟩
    [] (fun _ => .renameFail) ⟨["in/a.png"], [], [], 0, 0, []⟩ "in/a.png" []
    (by intro t ht; simp [lookupA] at ht) (by decide) (by decide) (by decide)
  exact ⟨h.1, h.2.1⟩

/-! ## The shape of a completed run -/

/-- The loop state at the end of the candidate loop of a run. -/
def loopStateOf (cfg : Cfg) (w : World) (oc : String → ConvOutcome) : LoopState :=
  runLoop cfg (valuesOf w.lockFile) oc
    ⟨w.fs, w.lockFile, [], 0, 0, []⟩ (discover cfg w.fs)

/-- When the input directory exists and discovery is nonempty, a run reaches
the loop, rebuilds the table from the loop's final lock state, and saves that
lock state; all observable projections are those of the loop state. -/
theorem runMain_shape (cfg : Cfg) (w : World) (oc : String → ConvOutcome)
    (hin : cfg.input ∈ w.dirs) (hcs : discover cfg w.fs ≠ []) :
    (runMain cfg w oc).repls
        = (loopStateOf cfg w oc).lock.flatMap
            (fun e => mkRepl cfg.input e.1 e.2) ∧
    (runMain cfg w oc).world.lockFile = (loopStateOf cfg w oc).lock ∧
    (runMain cfg w oc).world.fs = (loopStateOf cfg w oc).fs ∧
    (runMain cfg w oc).world.dirs = w.dirs ∧
    (runMain cfg w oc).succ = (loopStateOf cfg w oc).succ ∧
    (runMain cfg w oc).fail = (loopStateOf cfg w oc).fail ∧
    (runMain cfg w oc).log = (loopStateOf cfg w oc).log ∧
    (runMain cfg w oc).outcome = .completed := by
  rw [runMain, runMainCore]
  simp only [hin, if_pos, loopStateOf, runLoop]
  simp only [hcs, if_neg, not_false_iff]
  refine ⟨?_, ?_, ?_, ?_, ?_, ?_, ?_, ?_⟩ <;>
    cases cfg.workingDir <;>
      simp only [apply_ite RunResult.repls, apply_ite RunResult.world,
        apply_ite RunResult.succ, apply_ite RunResult.fail,
        apply_ite RunResult.log, apply_ite RunResult.outcome,
        apply_ite World.lockFile, apply_ite World.fs, apply_ite World.dirs,
        ite_self] <;> rfl

/-! ## C6 — the replacement table is rebuilt from the final lock state -/

/-- C6: once the loop is over, the rules accumulated during it are discarded:
the final table is a pure function of the final lock state, containing, for
every `(original, target)` entry, the input-root-relative rule, the
as-discovered / cwd-relative rule exactly when the original's discovered path
differs from its input-root-relative form, and nothing else.  Because the
table is rebuilt from every lock entry, entries of earlier runs whose source
is no longer discovered are still covered. -/
theorem rebuild_table_from_lock (cfg : Cfg) (w : World)
    (oc : String → ConvOutcome)
    (hin : cfg.input ∈ w.dirs) (hcs : discover cfg w.fs ≠ []) :
    (runMain cfg w oc).repls
      = (runMain cfg w oc).world.lockFile.flatMap
          (fun e => mkRepl cfg.input e.1 e.2) ∧
    (∀ o t, (o, t) ∈ (runMain cfg w oc).world.lockFile →
      ({ oldRel := relP cfg.input o, newRel := relP cfg.input t } : Rule)
          ∈ (runMain cfg w oc).repls ∧
      (o ≠ relP cfg.input o →
        ({ oldRel := o, newRel := t } : Rule) ∈ (runMain cfg w oc).repls) ∧
      (o = relP cfg.input o →
        mkRepl cfg.input o t
          = [{ oldRel := relP cfg.input o, newRel := relP cfg.input t }])) := by
  have hrepls : (runMain cfg w oc).repls
      = (runMain cfg w oc).world.lockFile.flatMap
          (fun e => mkRepl cfg.input e.1 e.2) := by
    have h1 := runMain_shape cfg w oc hin hcs
    rw [h1.1, h1.2.1]
  refine ⟨hrepls, fun o t hmem => ?_⟩
  refine ⟨?_, fun hne => ?_, fun he => ?_⟩
  · rw [hrepls]
    exact List.mem_flatMap.mpr ⟨(o, t), hmem, by simp [mkRepl]⟩
  · rw [hrepls]
    exact List.mem_flatMap.mpr ⟨(o, t), hmem, by simp [mkRepl, hne]⟩
  · simp [mkRepl, ← he]

theorem rebuild_table_from_lock_witness :
    cfgW6.input ∈ wC6.dirs ∧ discover cfgW6 wC6.fs ≠ [] ∧
    (runMain cfgW6 wC6 (fun _ => .ok)).repls
      = (runMain cfgW6 wC6 (fun _ => .ok)).world.lockFile.flatMap
          (fun e => mkRepl cfgW6.input e.1 e.2) ∧
    ({ oldRel := relP cfgW6.input "gone.png", newRel := relP cfgW6.input "gone.webp" } : Rule)
        ∈ (runMain cfgW6 wC6 (fun _ => .ok)).repls := by
  have h := rebuild_table_from_lock cfgW6 wC6 (fun _ => .ok) (by decide)
    (by decide)
  refine ⟨by decide, by decide, h.1, ?_⟩
  exact (h.2 "gone.png" "gone.webp" (by rw [show (runMain cfgW6 wC6
    (fun _ => .ok)).world.lockFile = [("gone.png", "gone.webp"),
      ("in/a.png", "in/a.webp")] from by decide]; simp)).1

/-! ## C10 — early return when discovery finds nothing -/

/-- C10: with zero discovered candidates the run returns right after
discovery: the lock file on disk is left as it was, the replacement table is
never rebuilt (and stays empty), no reference rewriting happens, and no text
file or other file changes — regardless of what the loaded lock state
contains. -/
theorem no_images_early_return (cfg : Cfg) (w : World)
    (oc : String → ConvOutcome)
    (hin : cfg.input ∈ w.dirs) (hcs : discover cfg w.fs = []) :
    (runMain cfg w oc).outcome = .noImages ∧
    (runMain cfg w oc).world.lockFile = w.lockFile ∧
    (runMain cfg w oc).world.textFiles = w.textFiles ∧
    (runMain cfg w oc).world.fs = w.fs ∧
    (runMain cfg w oc).repls = [] ∧
    (runMain cfg w oc).lockSaved = false ∧
    (runMain cfg w oc).tableRebuilt = false ∧
    (runMain cfg w oc).refsUpdated = false := by
  rw [runMain, runMainCore]
  simp [hin, hcs]

theorem no_images_early_return_witness :
    (runMain cfgW10 wC10 (fun _ => .ok)).world.lockFile
        = [("old/a.png", "old/a.webp")] ∧
    (runMain cfgW10 wC10 (fun _ => .ok)).world.textFiles
        = [("index.html", "see old/a.png")] ∧
    (runMain cfgW10 wC10 (fun _ => .ok)).lockSaved = false ∧
    (runMain cfgW10 wC10 (fun _ => .ok)).tableRebuilt = false := by
  have h := no_images_early_return cfgW10 wC10 (fun _ => .ok) (by decide)
    (by decide)
  exact ⟨h.2.1, h.2.2.1, h.2.2.2.2.2.1, h.2.2.2.2.2.2.1⟩

/-! ## C9 — setup errors -/

/-- C9 (amended): a missing or invalid configuration file aborts the run
fatally before any state is touched; a missing input directory aborts the run
fatally before any conversion, but only after `.gitignore` maintenance, which
may add the output directory to `.gitignore` — the sole possible mutation on
that path (files, lock file, text files and directories are untouched). -/
theorem setup_errors_abort (bl : String → Bool) (w : World)
    (oc : String → ConvOutcome) :
    (w.configFile = none →
      runFromRaw bl w oc
        = ⟨w, .fatalConfigMissing, 0, 0, [], [], false, false, false⟩) ∧
    (∀ raw, w.configFile = some raw → validRaw raw = false →
      runFromRaw bl w oc
        = ⟨w, .fatalConfigInvalid, 0, 0, [], [], false, false, false⟩) ∧
    (∀ raw i o, w.configFile = some raw → validRaw raw = true →
      raw.input = some i → raw.output = some o → i ∉ w.dirs →
      runFromRaw bl w oc
        = ⟨{ w with gitignore := ensureGitIgnoreContent w.gitignore o },
           .fatalInputMissing, 0, 0, [], [], false, false, false⟩) := by
  refine ⟨fun hc => ?_, fun raw hc hv => ?_, fun raw i o hc hv hi ho hdir => ?_⟩
  · rw [runFromRaw, hc]
  · simp [runFromRaw, hc, hv]
  · simp [runFromRaw, hc, hv, hi, ho, hdir]

/-- C9, the claim as stated is false: with a valid configuration, a missing
input directory, and an output directory not yet listed in `.gitignore`, the
run terminates fatally but has already rewritten `.gitignore` — a mutation of
persistent state before the abort. -/
theorem setup_error_mutates_gitignore :
    (runFromRaw (fun _ => false) wC9 (fun _ => .ok)).outcome
        = .fatalInputMissing ∧
    (runFromRaw (fun _ => false) wC9 (fun _ => .ok)).world.gitignore
        = "out\n" ∧
    wC9.gitignore = "" := by
  refine ⟨?_, ?_, rfl⟩ <;> decide

theorem setup_errors_abort_witness :
    wC9m.configFile = none ∧
    runFromRaw (fun _ => false) wC9m (fun _ => .ok)
      = ⟨wC9m, .fatalConfigMissing, 0, 0, [], [], false, false, false⟩ := by
  exact ⟨rfl, (setup_errors_abort (fun _ => false) wC9m (fun _ => .ok)).1 rfl⟩

/-! ## C8 — longest-match precedence -/

/-- C8: the rule table is applied in order of old-path length, descending
(the sort is total on that key), so a rule whose old path is a proper
substring — hence strictly shorter — comes after the longer one; on the
spec's own instance, the two rules `a/b.png -> a/b.webp` and
`b.png -> b.webp`, given in either order, rewrite a standalone `a/b.png`
exactly once, through the longer rule, and the shorter rule leaves the result
untouched. -/
theorem longest_match_precedence :
    (∀ rs : List Rule,
      (sortRules rs).Pairwise (fun a b => b.oldRel.length ≤ a.oldRel.length)) ∧
    sortRules [⟨"b.png", "b.webp"⟩, ⟨"a/b.png", "a/b.webp"⟩]
        = [⟨"a/b.png", "a/b.webp"⟩, ⟨"b.png", "b.webp"⟩] ∧
    sortRules [⟨"a/b.png", "a/b.webp"⟩, ⟨"b.png", "b.webp"⟩]
        = [⟨"a/b.png", "a/b.webp"⟩, ⟨"b.png", "b.webp"⟩] ∧
    rewriteContent [⟨"b.png", "b.webp"⟩, ⟨"a/b.png", "a/b.webp"⟩]
        "src: a/b.png;" = "src: a/b.webp;" ∧
    applyRule "a/b.png" "a/b.webp" "src: a/b.png;" = "src: a/b.webp;" ∧
    applyRule "b.png" "b.webp" "src: a/b.webp;" = "src: a/b.webp;" := by
  refine ⟨fun rs => ?_, by simp [sortRules, List.mergeSort, List.merge]; decide,
    by simp [sortRules, List.mergeSort, List.merge]; decide,
    by simp [rewriteContent, sortRules, List.mergeSort, List.merge]
       decide,
    by decide, by decide⟩
  have h := @List.sorted_mergeSort Rule
    (fun a b => decide (b.oldRel.length ≤ a.oldRel.length))
    (fun a b c hab hbc => by
      simp only [decide_eq_true_eq] at hab hbc ⊢
      omega)
    (fun a b => by
      simp only [Bool.or_eq_true, decide_eq_true_eq]
      omega)
    rs
  refine h.imp ?_
  intro a b hab
  simpa using hab

/-! ## C7 — the boundary rule of the rewriter -/

/-- Every position replaced by `replGo` lies at or beyond the current scan
position `rp.length + skip`. -/
theorem replGo_pos_ge (old nw : List Char) :
    ∀ (s rp : List Char) (skip : Nat),
      ∀ i ∈ (replGo old nw rp skip s).2, rp.length + skip ≤ i := by
  intro s
  induction s with
  | nil => intro rp skip i hi; simp [replGo] at hi
  | cons c rest ih =>
    intro rp skip i hi
    cases skip with
    | succ n =>
      have h := ih (c :: rp) n i hi
      simp only [List.length_cons] at h
      omega
    | zero =>
      rw [replGo] at hi
      by_cases hcond : old ≠ [] ∧ boundaryOk (ctxOf rp) = true
          ∧ old.isPrefixOf (c :: rest)
      · rw [if_pos hcond] at hi
        simp only [List.mem_cons] at hi
        rcases hi with rfl | hi
        · omega
        · have h := ih (c :: rp) (old.length - 1) i hi
          simp only [List.length_cons] at h
          omega
      · rw [if_neg hcond] at hi
        have h := ih (c :: rp) 0 i hi
        simp only [List.length_cons] at h
        omega

/-- The characterization of the replaced positions: starting from scan state
`(rp, skip)`, a position is replaced exactly when it is at or beyond the scan
position, qualifies under the boundary rule on the original string, and does
not start inside an occurrence replaced earlier. -/
theorem replGo_positions_iff (old nw : List Char) (hold : old ≠ []) :
    ∀ (s rp : List Char) (skip : Nat) (i : Nat),
      i ∈ (replGo old nw rp skip s).2 ↔
        (rp.length + skip ≤ i ∧
         qualifiesAtL old (rp.reverse ++ s) i = true ∧
         ∀ j ∈ (replGo old nw rp skip s).2, j < i → j + old.length ≤ i) := by
  intro s
  induction s with
  | nil =>
    intro rp skip i
    simp only [replGo, List.not_mem_nil, false_iff, not_and]
    intro hle hq
    exfalso
    have hdrop : (rp.reverse ++ ([] : List Char)).drop i = [] := by
      refine List.drop_eq_nil_of_le ?_
      simp
      omega
    rw [qualifiesAtL, hdrop] at hq
    have : old.isPrefixOf ([] : List Char) = true := by
      simp only [Bool.and_eq_true] at hq
      exact hq.2
    rw [List.isPrefixOf_iff_prefix] at this
    exact hold (List.prefix_nil.mp this)
  | cons c rest ih =>
    intro rp skip i
    have hs : rp.reverse ++ c :: rest = (c :: rp).reverse ++ rest := by simp
    cases skip with
    | succ n =>
      have hrw : replGo old nw rp (n + 1) (c :: rest)
          = replGo old nw (c :: rp) n rest := rfl
      rw [hrw, hs]
      have hlen : rp.length + (n + 1) = (c :: rp).length + n := by
        simp only [List.length_cons]
        omega
      rw [hlen]
      exact ih (c :: rp) n i
    | zero =>
      by_cases hcond : old ≠ [] ∧ boundaryOk (ctxOf rp) = true
          ∧ old.isPrefixOf (c :: rest)
      · have hrw : (replGo old nw rp 0 (c :: rest)).2
            = rp.length :: (replGo old nw (c :: rp) (old.length - 1) rest).2 := by
          rw [replGo, if_pos hcond]
        have hq0 : qualifiesAtL old (rp.reverse ++ c :: rest) rp.length = true := by
          rw [qualifiesAtL]
          have ht : (rp.reverse ++ c :: rest).take rp.length = rp.reverse := by
            rw [show rp.length = rp.reverse.length by simp]
            exact List.take_left rp.reverse (c :: rest)
          have hd : (rp.reverse ++ c :: rest).drop rp.length = c :: rest := by
            rw [show rp.length = rp.reverse.length by simp]
            exact List.drop_left rp.reverse (c :: rest)
          rw [ht, hd, List.reverse_reverse]
          simp [hold, hcond.2.1, hcond.2.2]
        have holdlen : 1 ≤ old.length := List.length_pos.mpr hold
        have hge := replGo_pos_ge old nw rest (c :: rp) (old.length - 1)
        have hgeq : ∀ j ∈ (replGo old nw (c :: rp) (old.length - 1) rest).2,
            rp.length + old.length ≤ j := by
          intro j hj
          have := hge j hj
          simp only [List.length_cons] at this
          omega
        rw [hrw]
        constructor
        · intro hi
          rcases List.mem_cons.mp hi with rfl | hi2
          · refine ⟨by omega, hq0, ?_⟩
            intro j hj hji
            rcases List.mem_cons.mp hj with rfl | hj2
            · omega
            · exact absurd hji (by have := hgeq j hj2; omega)
          · have h2 := (ih (c :: rp) (old.length - 1) i).mp hi2
            rw [← hs] at h2
            have h21 := h2.1
            simp only [List.length_cons] at h21
            refine ⟨by omega, h2.2.1, ?_⟩
            intro j hj hji
            rcases List.mem_cons.mp hj with rfl | hj2
            · have := hgeq i hi2
              omega
            · exact h2.2.2 j hj2 hji
        · rintro ⟨hle, hq, hnov⟩
          by_cases hieq : i = rp.length
          · exact hieq ▸ List.mem_cons_self _ _
          · have hlt : rp.length < i := by omega
            have hbig : rp.length + old.length ≤ i :=
              hnov rp.length (List.mem_cons_self _ _) hlt
            refine List.mem_cons.mpr (Or.inr ?_)
            refine (ih (c :: rp) (old.length - 1) i).mpr ?_
            rw [← hs]
            refine ⟨by simp only [List.length_cons]; omega, hq, ?_⟩
            intro j hj hji
            exact hnov j (List.mem_cons.mpr (Or.inr hj)) hji
      · have hrw : (replGo old nw rp 0 (c :: rest)).2
            = (replGo old nw (c :: rp) 0 rest).2 := by
          rw [replGo, if_neg hcond]
        rw [hrw]
        constructor
        · intro hi
          have h2 := (ih (c :: rp) 0 i).mp hi
          rw [← hs] at h2
          refine ⟨by simp only [List.length_cons] at h2; omega, h2.2.1, h2.2.2⟩
        · rintro ⟨hle, hq, hnov⟩
          by_cases hieq : i = rp.length
          · exfalso
            subst hieq
            rw [qualifiesAtL] at hq
            have ht : (rp.reverse ++ c :: rest).take rp.length = rp.reverse := by
              rw [show rp.length = rp.reverse.length by simp]
              exact List.take_left rp.reverse (c :: rest)
            have hd : (rp.reverse ++ c :: rest).drop rp.length = c :: rest := by
              rw [show rp.length = rp.reverse.length by simp]
              exact List.drop_left rp.reverse (c :: rest)
            rw [ht, hd, List.reverse_reverse] at hq
            simp only [Bool.and_eq_true] at hq
            exact hcond ⟨hold, hq.1.2, hq.2⟩
          · refine (ih (c :: rp) 0 i).mpr ?_
            rw [← hs]
            refine ⟨by simp only [List.length_cons]; omega, hq, hnov⟩

/-- C7 (amended): an occurrence of a rule's old path is replaced exactly when
it satisfies the boundary rule — not immediately preceded by a word
character, hyphen or period, nor by a path separator itself preceded by one —
**and** it does not start inside an occurrence already replaced to its left
(`String.replace` with a global regex consumes matches left to right, so of
two overlapping qualifying occurrences only the left one is replaced).  In
particular the spec's examples hold: `bigimg.png`, `sub/img.png` and
`other-img.png` are untouched while a standalone `img.png` is rewritten. -/
theorem boundary_safe_rewriting :
    (∀ old nw content : String, old ≠ "" → ∀ i : Nat,
      i ∈ (replGo old.data nw.data [] 0 content.data).2 ↔
        (qualifiesAt old content i = true ∧
         ∀ j ∈ (replGo old.data nw.data [] 0 content.data).2,
           j < i → j + old.data.length ≤ i)) ∧
    applyRule "img.png" "img.webp"
        "a: bigimg.png, sub/img.png, other-img.png and img.png"
      = "a: bigimg.png, sub/img.png, other-img.png and img.webp" := by
  constructor
  · intro old nw content hold i
    have holdL : old.data ≠ [] := fun hnil => hold (String.ext hnil)
    have h := replGo_positions_iff old.data nw.data holdL content.data [] 0 i
    simpa [qualifiesAt] using h
  · decide

theorem boundary_safe_rewriting_witness :
    3 ∈ (replGo "img.png".data "img.webp".data [] 0 "a: img.png x".data).2 :=
  (boundary_safe_rewriting.1 "img.png" "img.webp" "a: img.png x"
    (by decide) 3).mpr (by decide)

/-- C7 as stated is false: for the rule old path `((` and file content `(((`,
the occurrence at index 1 is *not* immediately preceded by a word character,
hyphen or period (its predecessor is `(`), nor by a separator preceded by
one, yet it is not replaced — the replacement at index 0 consumed it.  The
claim's boundary rule alone therefore does not characterize the replaced
occurrences. -/
theorem boundary_claim_counterexample :
    qualifiesAt "((" "(((" 1 = true ∧
    (replGo "((".data "x".data [] 0 "(((".data).2 = [0] ∧
    1 ∉ (replGo "((".data "x".data [] 0 "(((".data).2 := by
  exact ⟨by decide, by decide, by decide⟩

/-! ## Path algebra

Lemmas about the segment model needed for the idempotence claim: round
trips between `segsOf` and `ofSegs`, idempotence of `finalPathOf` on paths
that already carry the target extension, and the fact that the computed
final, temp and backup paths cannot collide with each other or with the
input tree in the wrong way. -/

/-- A well-formed path segment: nonempty, not `.`, and without `/`. -/
def validSeg (s : List Char) : Prop := s ≠ [] ∧ s ≠ ['.'] ∧ '/' ∉ s

theorem splitSegsAux_no_slash (cs : List Char) :
    ∀ cur : List Char, '/' ∉ cur → ∀ s ∈ splitSegsAux cur cs, '/' ∉ s := by
  induction cs with
  | nil =>
    intro cur hcur s hs
    simp only [splitSegsAux, List.mem_singleton] at hs
    subst hs
    simpa using hcur
  | cons c rest ih =>
    intro cur hcur s hs
    by_cases hc : c = '/'
    · rw [splitSegsAux, if_pos hc] at hs
      rcases List.mem_cons.mp hs with rfl | hs2
      · simpa using hcur
      · exact ih [] (by simp) s hs2
    · rw [splitSegsAux, if_neg hc] at hs
      refine ih (c :: cur) ?_ s hs
      intro hmem
      rcases List.mem_cons.mp hmem with h | h
      · exact hc h.symm
      · exact hcur h

theorem segsOf_valid (p : String) : ∀ s ∈ segsOf p, validSeg s := by
  intro s hs
  rw [segsOf] at hs
  have hmem := List.mem_of_mem_filter hs
  have hpred := List.of_mem_filter hs
  simp only [Bool.and_eq_true, Bool.not_eq_true', beq_eq_false_iff_ne] at hpred
  exact ⟨hpred.1, hpred.2, splitSegsAux_no_slash p.data [] (by simp) s hmem⟩

theorem splitSegsAux_no_slash_eq (s : List Char) :
    ∀ cur : List Char, '/' ∉ s → splitSegsAux cur s = [cur.reverse ++ s] := by
  induction s with
  | nil => intro cur _; simp [splitSegsAux]
  | cons c rest ih =>
    intro cur hs
    have hc : c ≠ '/' := fun h => hs (by simp [h])
    rw [splitSegsAux, if_neg (fun h => hc h)]
    rw [ih (c :: cur) (fun h => hs (List.mem_cons_of_mem c h))]
    simp

theorem splitSegsAux_split (s rest : List Char) :
    ∀ cur : List Char, '/' ∉ s →
      splitSegsAux cur (s ++ '/' :: rest)
        = (cur.reverse ++ s) :: splitSegsAux [] rest := by
  induction s with
  | nil => intro cur _; simp [splitSegsAux]
  | cons c s2 ih =>
    intro cur hs
    have hc : c ≠ '/' := fun h => hs (by simp [h])
    rw [List.cons_append, splitSegsAux, if_neg (fun h => hc h)]
    rw [ih (c :: cur) (fun h => hs (List.mem_cons_of_mem c h))]
    simp

theorem segsOf_ofSegs (l : List (List Char)) (h : ∀ s ∈ l, validSeg s) :
    segsOf (ofSegs l) = l := by
  induction l with
  | nil => rfl
  | cons s l2 ih =>
    obtain ⟨hs1, hs2, hs3⟩ := h s (List.mem_cons_self _ _)
    cases l2 with
    | nil =>
      rw [segsOf, ofSegs]
      show (splitSegsAux [] (joinChars [s])).filter _ = [s]
      rw [show joinChars [s] = s from rfl, splitSegsAux_no_slash_eq s [] hs3]
      simp [hs1, hs2]
    | cons t l3 =>
      rw [segsOf, ofSegs]
      show (splitSegsAux [] (joinChars (s :: t :: l3))).filter _ = s :: t :: l3
      rw [show joinChars (s :: t :: l3) = s ++ '/' :: joinChars (t :: l3) from rfl]
      rw [splitSegsAux_split s (joinChars (t :: l3)) [] hs3]
      have ih2 := ih (fun x hx => h x (List.mem_cons_of_mem s hx))
      rw [segsOf, ofSegs] at ih2
      simp only [List.filter_cons, List.nil_append]
      rw [if_pos (by simp [hs1, hs2])]
      exact congrArg _ ih2

theorem joinChars_concat (l : List (List Char)) (s : List Char) :
    ∃ t : List Char, joinChars (l ++ [s]) = t ++ s := by
  induction l with
  | nil => exact ⟨[], rfl⟩
  | cons a l2 ih =>
    obtain ⟨t, ht⟩ := ih
    cases l2 with
    | nil => exact ⟨a ++ ['/'], by simp [joinChars]⟩
    | cons b l3 =>
      refine ⟨a ++ '/' :: t, ?_⟩
      have ht2 : joinChars (b :: (l3 ++ [s])) = t ++ s := ht
      show a ++ '/' :: joinChars (b :: (l3 ++ [s])) = (a ++ '/' :: t) ++ s
      rw [ht2]
      simp

theorem splitAtFirstDot_of_no_dot (a : List Char) (b : List Char)
    (ha : '.' ∉ a) : splitAtFirstDot (a ++ '.' :: b) = some (a, b) := by
  induction a with
  | nil => simp [splitAtFirstDot]
  | cons c a2 ih =>
    have hc : c ≠ '.' := fun h => ha (by simp [h])
    rw [List.cons_append, splitAtFirstDot, if_neg hc,
      ih (fun h => ha (List.mem_cons_of_mem c h))]

theorem splitAtFirstDot_spec (rb : List Char) :
    ∀ a b, splitAtFirstDot rb = some (a, b) → rb = a ++ '.' :: b := by
  induction rb with
  | nil => intro a b h; simp [splitAtFirstDot] at h
  | cons c rest ih =>
    intro a b h
    by_cases hc : c = '.'
    · rw [splitAtFirstDot, if_pos hc] at h
      simp only [Option.some.injEq, Prod.mk.injEq] at h
      subst hc
      rw [← h.1, ← h.2]
      rfl
    · rw [splitAtFirstDot, if_neg hc] at h
      cases hrec : splitAtFirstDot rest with
      | none => rw [hrec] at h; simp at h
      | some p =>
        obtain ⟨a2, b2⟩ := p
        rw [hrec] at h
        simp only [Option.some.injEq, Prod.mk.injEq] at h
        have hr := ih a2 b2 hrec
        rw [← h.1, ← h.2, List.cons_append, hr]

/-- The stem of a base name is one of its prefixes, so it inherits the
absence of `/` and `.`-freedom properties we need. -/
theorem stemOfBase_sublist (b : List Char) :
    stemOfBase b = b ∨
      ∃ rest : List Char, b = stemOfBase b ++ '.' :: rest := by
  rw [stemOfBase, extSplitBase]
  cases hd : splitAtFirstDot b.reverse with
  | none => exact Or.inl rfl
  | some p =>
    obtain ⟨afterRev, beforeRev⟩ := p
    by_cases hb : beforeRev = []
    · simp [hb]
    · have hspec := splitAtFirstDot_spec b.reverse afterRev beforeRev hd
      refine Or.inr ⟨afterRev.reverse, ?_⟩
      simp only [if_neg hb]
      have : b = (afterRev ++ '.' :: beforeRev).reverse := by
        rw [← hspec, List.reverse_reverse]
      rw [this]
      simp

theorem stemOfBase_no_slash (b : List Char) (hb : '/' ∉ b) :
    '/' ∉ stemOfBase b := by
  rcases stemOfBase_sublist b with h | ⟨rest, h⟩
  · rw [h]; exact hb
  · intro hmem
    exact hb (h ▸ List.mem_append.mpr (Or.inl hmem))

theorem stemOfBase_ne_nil (b : List Char) (hb : b ≠ []) :
    stemOfBase b ≠ [] := by
  rw [stemOfBase, extSplitBase]
  cases hd : splitAtFirstDot b.reverse with
  | none => exact hb
  | some p =>
    obtain ⟨afterRev, beforeRev⟩ := p
    by_cases hbr : beforeRev = []
    · simp only [hbr, if_pos]
      exact hb
    · simp only [if_neg hbr]
      simpa using hbr

theorem fmt_ext_ne_nil (f : Fmt) : Fmt.ext f ≠ [] := by cases f <;> decide

theorem fmt_ext_no_dot (f : Fmt) : '.' ∉ Fmt.ext f := by cases f <;> decide

theorem fmt_ext_no_slash (f : Fmt) : '/' ∉ Fmt.ext f := by cases f <;> decide

/-- Splitting the constructed base name `stem ++ "." ++ ext` back into stem
and extension recovers the stem (when the stem is nonempty). -/
theorem extSplitBase_mk (stem : List Char) (f : Fmt) (hs : stem ≠ []) :
    extSplitBase (stem ++ '.' :: f.ext) = (stem, '.' :: f.ext) := by
  rw [extSplitBase]
  have hrev : (stem ++ '.' :: f.ext).reverse
      = (f.ext).reverse ++ '.' :: stem.reverse := by simp
  rw [hrev, splitAtFirstDot_of_no_dot _ _
    (fun h => fmt_ext_no_dot f (List.mem_reverse.mp h))]
  have hsr : stem.reverse ≠ [] := by simpa using hs
  simp [hsr]

/-- The base segment introduced by `finalPathOf`. -/
def finalSeg (f : Fmt) (base : List Char) : List Char :=
  stemOfBase base ++ '.' :: f.ext

theorem finalSeg_valid (f : Fmt) (base : List Char) (hb : '/' ∉ base) :
    validSeg (finalSeg f base) := by
  refine ⟨by simp [finalSeg], ?_, ?_⟩
  · rw [finalSeg]
    intro h
    have hl := congrArg List.length h
    have he : 1 ≤ (Fmt.ext f).length := List.length_pos.mpr (fmt_ext_ne_nil f)
    simp at hl
    omega
  · rw [finalSeg]
    intro h
    rcases List.mem_append.mp h with h2 | h2
    · exact stemOfBase_no_slash base hb h2
    · rcases List.mem_cons.mp h2 with h3 | h3
      · exact absurd h3.symm (by decide)
      · exact fmt_ext_no_slash f h3

theorem segsOf_ne_nil_of_imageExt (p : String) (hp : hasImageExt p = true) :
    segsOf p ≠ [] := by
  intro h
  rw [hasImageExt, extnameP, lastSegOf, h] at hp
  simp [extOfBase, extSplitBase, splitAtFirstDot] at hp

theorem getLastD_mem (l : List (List Char)) (h : l ≠ []) :
    (l.getLast?).getD [] ∈ l := by
  rw [List.getLast?_eq_getLast l h]
  exact Option.getD_some ▸ List.getLast_mem h

theorem finalPathOf_segs (f : Fmt) (p : String) :
    segsOf (finalPathOf f p)
      = (segsOf p).dropLast ++ [finalSeg f ((segsOf p).getLast?.getD [])] := by
  rw [finalPathOf]
  refine segsOf_ofSegs _ ?_
  intro s hs
  rcases List.mem_append.mp hs with h2 | h2
  · exact segsOf_valid p s (List.dropLast_subset _ h2)
  · have hs2 : s = finalSeg f ((segsOf p).getLast?.getD []) := by
      simpa using h2
    subst hs2
    refine finalSeg_valid f _ ?_
    by_cases hnil : segsOf p = []
    · simp [hnil]
    · exact (segsOf_valid p _ (getLastD_mem _ hnil)).2.2

theorem finalPathOf_idem (f : Fmt) (p : String) (hp : hasImageExt p = true) :
    finalPathOf f (finalPathOf f p) = finalPathOf f p := by
  have hL : segsOf p ≠ [] := segsOf_ne_nil_of_imageExt p hp
  have hbase := getLastD_mem (segsOf p) hL
  have hbv := segsOf_valid p _ hbase
  have h1 := finalPathOf_segs f p
  rw [show finalPathOf f (finalPathOf f p)
      = ofSegs ((segsOf (finalPathOf f p)).dropLast
          ++ [finalSeg f ((segsOf (finalPathOf f p)).getLast?.getD [])])
      from rfl]
  rw [h1, List.dropLast_concat, List.getLast?_concat]
  have hstem : stemOfBase (finalSeg f ((segsOf p).getLast?.getD []))
      = stemOfBase ((segsOf p).getLast?.getD []) := by
    rw [finalSeg, stemOfBase, extSplitBase_mk _ f
      (stemOfBase_ne_nil _ hbv.1)]
  rw [show (some (finalSeg f ((segsOf p).getLast?.getD []))).getD []
      = finalSeg f ((segsOf p).getLast?.getD []) from rfl]
  rw [show finalSeg f (finalSeg f ((segsOf p).getLast?.getD []))
      = stemOfBase (finalSeg f ((segsOf p).getLast?.getD [])) ++ '.' :: f.ext
      from rfl]
  rw [hstem]
  rfl

theorem finalPathOf_ne_empty (f : Fmt) (p : String) : finalPathOf f p ≠ "" := by
  intro h
  have hd := congrArg String.data h
  obtain ⟨t, ht⟩ := joinChars_concat (segsOf p).dropLast
    (finalSeg f ((segsOf p).getLast?.getD []))
  rw [show (finalPathOf f p).data = joinChars ((segsOf p).dropLast
    ++ [finalSeg f ((segsOf p).getLast?.getD [])]) from rfl, ht] at hd
  have : finalSeg f ((segsOf p).getLast?.getD []) = [] := by
    have := List.append_eq_nil.mp hd
    exact this.2
  simp [finalSeg] at this

/-- The character two places before the end of a list. -/
def sndLast (l : List Char) : Option Char := l.reverse[1]?

theorem sndLast_append (t s : List Char) (h : 2 ≤ s.length) :
    sndLast (t ++ s) = sndLast s := by
  rw [sndLast, sndLast, List.reverse_append]
  have h1 : 1 < s.reverse.length := by simp; omega
  rw [List.getElem?_append_left h1]

theorem sndLast_final (f : Fmt) (p : String) :
    sndLast (finalPathOf f p).data ≠ some 'm' := by
  obtain ⟨t, ht⟩ := joinChars_concat (segsOf p).dropLast
    (finalSeg f ((segsOf p).getLast?.getD []))
  rw [show (finalPathOf f p).data = joinChars ((segsOf p).dropLast
    ++ [finalSeg f ((segsOf p).getLast?.getD [])]) from rfl, ht]
  rw [finalSeg, show (t ++ (stemOfBase ((segsOf p).getLast?.getD [])
      ++ '.' :: f.ext))
    = (t ++ stemOfBase ((segsOf p).getLast?.getD [])) ++ ('.' :: f.ext)
      by simp]
  rw [sndLast_append _ _ (by
    have : 1 ≤ (Fmt.ext f).length := List.length_pos.mpr (fmt_ext_ne_nil f)
    simp
    omega)]
  cases f <;> decide

theorem finalPathOf_ne_temp (f : Fmt) (k c : String) :
    finalPathOf f k ≠ tempOf c := by
  intro h
  have hd : sndLast (finalPathOf f k).data = sndLast (tempOf c).data := by
    rw [h]
  have ht : sndLast (tempOf c).data = some 'm' := by
    rw [tempOf, show (c ++ ".temp").data = c.data ++ ".temp".data by simp]
    rw [sndLast_append _ _ (by decide)]
    decide
  rw [ht] at hd
  exact sndLast_final f k hd

/-! ### Backup paths stay outside the input tree -/

/-- The amendment's hypothesis: neither the input root nor the output root
lies inside the other. -/
def rootsIncomparable (cfg : Cfg) : Prop :=
  ¬(segsOf cfg.input <+: segsOf cfg.output) ∧
    ¬(segsOf cfg.output <+: segsOf cfg.input)

theorem dropCommon_snd_mem (a b : List (List Char)) :
    ∀ s ∈ (dropCommon a b).2, s ∈ b := by
  induction a generalizing b with
  | nil => intro s hs; cases b <;> simpa [dropCommon] using hs
  | cons x a2 ih =>
    intro s hs
    cases b with
    | nil => simpa [dropCommon] using hs
    | cons y b2 =>
      rw [dropCommon] at hs
      by_cases hxy : (x == y) = true
      · rw [if_pos hxy] at hs
        exact List.mem_cons_of_mem y (ih b2 s hs)
      · rw [if_neg hxy] at hs
        simpa using hs

theorem segsOf_backupPath (cfg : Cfg) (c : String) :
    segsOf (backupPath cfg c)
      = segsOf cfg.output
        ++ ((dropCommon (segsOf cfg.input) (segsOf c)).1.map
              (fun _ => ['.', '.'])
            ++ (dropCommon (segsOf cfg.input) (segsOf c)).2) := by
  have hrel : segsOf (relP cfg.input c)
      = (dropCommon (segsOf cfg.input) (segsOf c)).1.map (fun _ => ['.', '.'])
        ++ (dropCommon (segsOf cfg.input) (segsOf c)).2 := by
    rw [relP]
    refine segsOf_ofSegs _ ?_
    intro s hs
    rcases List.mem_append.mp hs with h2 | h2
    · have : s = ['.', '.'] := by
        rcases List.mem_map.mp h2 with ⟨x, _, hx⟩
        exact hx.symm
      subst this
      exact ⟨by decide, by decide, by decide⟩
    · exact segsOf_valid c s (dropCommon_snd_mem _ _ s h2)
  rw [backupPath, joinP, ← hrel]
  refine segsOf_ofSegs _ ?_
  intro s hs
  rcases List.mem_append.mp hs with h2 | h2
  · exact segsOf_valid cfg.output s h2
  · exact segsOf_valid (relP cfg.input c) s h2

theorem backup_not_under_input (cfg : Cfg) (hroots : rootsIncomparable cfg)
    (c : String) : underDirB cfg.input (backupPath cfg c) = false := by
  rw [Bool.eq_false_iff]
  intro h
  rw [underDirB, Bool.and_eq_true, decide_eq_true_eq] at h
  have hpre : segsOf cfg.input <+: segsOf (backupPath cfg c) :=
    List.isPrefixOf_iff_prefix.mp h.1
  rw [segsOf_backupPath] at hpre
  have hout : segsOf cfg.output <+:
      segsOf cfg.output
        ++ ((dropCommon (segsOf cfg.input) (segsOf c)).1.map
              (fun _ => ['.', '.'])
            ++ (dropCommon (segsOf cfg.input) (segsOf c)).2) :=
    List.prefix_append _ _
  by_cases hlen : (segsOf cfg.input).length ≤ (segsOf cfg.output).length
  · exact hroots.1 (List.prefix_of_prefix_length_le hpre hout hlen)
  · exact hroots.2 (List.prefix_of_prefix_length_le hout hpre (by omega))

/-! ### Small helpers for the filesystem and lock models -/

theorem mem_fsIns (x p : String) (fs : List String) :
    x ∈ fsIns p fs ↔ x = p ∨ x ∈ fs := by
  rw [fsIns]
  by_cases h : p ∈ fs
  · rw [if_pos h]
    exact ⟨Or.inr, fun hx => hx.elim (fun he => he ▸ h) id⟩
  · rw [if_neg h]
    exact List.mem_cons

theorem mem_fsRem (x p : String) (fs : List String) :
    x ∈ fsRem p fs ↔ x ∈ fs ∧ x ≠ p := by
  simp [fsRem, List.mem_filter]

theorem upsertA_of_lookup_none (l : List (String × String)) (k v : String)
    (h : lookupA l k = none) : upsertA l k v = l ++ [(k, v)] := by
  induction l with
  | nil => rfl
  | cons e t ih =>
    obtain ⟨k0, v0⟩ := e
    rw [lookupA] at h
    by_cases hk : k0 = k
    · rw [if_pos hk] at h
      exact absurd h (by simp)
    · rw [if_neg hk] at h
      rw [upsertA, if_neg hk, ih h]
      rfl

theorem valuesOf_concat (l : List (String × String)) (k v : String) :
    valuesOf (l ++ [(k, v)]) = valuesOf l ++ [v] := by
  simp [valuesOf]

/-! ## C1 — idempotence of a second run

The invariant carried through the first run's candidate loop, for a run that
started from an empty lock state: every lock entry maps a processed candidate
to its final path, which exists on disk; every file on disk that looks like a
candidate is either still to be processed, a lock key, or a lock value; and
every successfully converted candidate has a lock entry. -/

structure Inv1 (cfg : Cfg) (rem : List String) (st : LoopState) : Prop where
  lockOk : ∀ k v, lookupA st.lock k = some v →
    v = finalPathOf cfg.fmt k ∧ v ∈ st.fs ∧ k ∉ rem ∧ hasImageExt k = true
  fsOk : ∀ x ∈ st.fs, isCandB cfg x = true →
    x ∈ rem ∨ (∃ v, lookupA st.lock x = some v) ∨ x ∈ valuesOf st.lock
  logOk : ∀ x, (x, Disp.converted) ∈ st.log → ∃ v, lookupA st.lock x = some v

theorem step1_preserves (cfg : Cfg) (oc : String → ConvOutcome)
    (hroots : rootsIncomparable cfg) (st : LoopState) (c : String)
    (rest : List String) (hok : oc c = .ok)
    (hc : isCandB cfg c = true) (hcrest : c ∉ rest)
    (hinv : Inv1 cfg (c :: rest) st) :
    Inv1 cfg rest (stepCandidate cfg [] oc st c) := by
  have hcparts := hc
  rw [isCandB, Bool.and_eq_true, Bool.and_eq_true] at hcparts
  have himg : hasImageExt c = true := hcparts.1.2
  have hlkc : lookupA st.lock c = none := by
    cases hl : lookupA st.lock c with
    | none => rfl
    | some v =>
      exact absurd (List.mem_cons_self c rest) (hinv.lockOk c v hl).2.2.1
  have hups : upsertA st.lock c (finalPathOf cfg.fmt c)
      = st.lock ++ [(c, finalPathOf cfg.fmt c)] :=
    upsertA_of_lookup_none _ _ _ hlkc
  have hstep : stepCandidate cfg [] oc st c = stepRest cfg [] oc st c := by
    rw [stepCandidate, hlkc]
  rw [hstep, stepRest]
  simp only [List.not_mem_nil, if_false]
  by_cases hbf : backupPath cfg c ∈ st.fs ∧ finalPathOf cfg.fmt c ∈ st.fs
  · rw [if_pos hbf]
    refine ⟨?_, ?_, ?_⟩
    · intro k v hkv
      by_cases hkc : k = c
      · subst hkc
        rw [lookupA_upsertA_self] at hkv
        have hv : v = finalPathOf cfg.fmt k := by
          simp only [Option.some.injEq] at hkv
          exact hkv.symm
        exact ⟨hv, hv ▸ hbf.2, hcrest, himg⟩
      · rw [lookupA_upsertA_ne _ _ _ _ hkc] at hkv
        obtain ⟨h1, h2, h3, h4⟩ := hinv.lockOk k v hkv
        exact ⟨h1, h2, fun hk => h3 (List.mem_cons_of_mem c hk), h4⟩
    · intro x hx hcand
      rcases hinv.fsOk x hx hcand with hrem | ⟨v, hv⟩ | hval
      · rcases List.mem_cons.mp hrem with rfl | hrest
        · exact Or.inr (Or.inl ⟨finalPathOf cfg.fmt x, lookupA_upsertA_self _ _ _⟩)
        · exact Or.inl hrest
      · have hxc : x ≠ c := fun he => by rw [he, hlkc] at hv; cases hv
        exact Or.inr (Or.inl ⟨v, by rw [lookupA_upsertA_ne _ _ _ _ hxc]; exact hv⟩)
      · refine Or.inr (Or.inr ?_)
        rw [hups, valuesOf_concat]
        exact List.mem_append.mpr (Or.inl hval)
    · intro x hx
      simp only [List.mem_append, List.mem_singleton] at hx
      rcases hx with hx | hx
      · obtain ⟨v, hv⟩ := hinv.logOk x hx
        by_cases hxc : x = c
        · exact ⟨finalPathOf cfg.fmt c, hxc ▸ lookupA_upsertA_self _ _ _⟩
        · exact ⟨v, by rw [lookupA_upsertA_ne _ _ _ _ hxc]; exact hv⟩
      · cases hx
  · rw [if_neg hbf, hok]
    have hmem : ∀ x, x ∈ fsIns (finalPathOf cfg.fmt c) (fsRem (tempOf c)
        (fsIns (backupPath cfg c) (fsRem c (fsIns (tempOf c) st.fs)))) ↔
        (x = finalPathOf cfg.fmt c ∨
         (x = backupPath cfg c ∧ x ≠ tempOf c) ∨
         (x ∈ st.fs ∧ x ≠ c ∧ x ≠ tempOf c)) := by
      intro x
      simp only [mem_fsIns, mem_fsRem]
      tauto
    refine ⟨?_, ?_, ?_⟩
    · intro k v hkv
      by_cases hkc : k = c
      · subst hkc
        rw [lookupA_upsertA_self] at hkv
        have hv : v = finalPathOf cfg.fmt k := by
          simp only [Option.some.injEq] at hkv
          exact hkv.symm
        refine ⟨hv, ?_, hcrest, himg⟩
        rw [hmem]
        exact Or.inl hv
      · rw [lookupA_upsertA_ne _ _ _ _ hkc] at hkv
        obtain ⟨h1, h2, h3, h4⟩ := hinv.lockOk k v hkv
        refine ⟨h1, ?_, fun hk => h3 (List.mem_cons_of_mem c hk), h4⟩
        rw [hmem]
        by_cases hvc : v = c
        · refine Or.inl ?_
          have hcf : c = finalPathOf cfg.fmt k := hvc ▸ h1
          rw [hvc, hcf]
          exact (finalPathOf_idem cfg.fmt k h4).symm
        · exact Or.inr (Or.inr ⟨h2, hvc, h1 ▸ finalPathOf_ne_temp cfg.fmt k c⟩)
    · intro x hx hcand
      rw [hmem] at hx
      rcases hx with hfnl | ⟨hbk, _⟩ | ⟨hfs, hxc, _⟩
      · refine Or.inr (Or.inr ?_)
        rw [hups, valuesOf_concat]
        exact List.mem_append.mpr (Or.inr (hfnl ▸ List.mem_singleton.mpr rfl))
      · exfalso
        rw [isCandB, Bool.and_eq_true, Bool.and_eq_true] at hcand
        have := hcand.1.1
        rw [hbk, backup_not_under_input cfg hroots c] at this
        cases this
      · rcases hinv.fsOk x hfs hcand with hrem | ⟨v, hv⟩ | hval
        · rcases List.mem_cons.mp hrem with rfl | hrest
          · exact absurd rfl hxc
          · exact Or.inl hrest
        · exact Or.inr (Or.inl ⟨v, by rw [lookupA_upsertA_ne _ _ _ _ hxc]; exact hv⟩)
        · refine Or.inr (Or.inr ?_)
          rw [hups, valuesOf_concat]
          exact List.mem_append.mpr (Or.inl hval)
    · intro x hx
      simp only [List.mem_append, List.mem_singleton] at hx
      rcases hx with hx | hx
      · obtain ⟨v, hv⟩ := hinv.logOk x hx
        by_cases hxc : x = c
        · exact ⟨finalPathOf cfg.fmt c, hxc ▸ lookupA_upsertA_self _ _ _⟩
        · exact ⟨v, by rw [lookupA_upsertA_ne _ _ _ _ hxc]; exact hv⟩
      · have hxc : x = c := congrArg Prod.fst hx
        exact ⟨finalPathOf cfg.fmt c, hxc ▸ lookupA_upsertA_self _ _ _⟩

theorem loop1_inv (cfg : Cfg) (oc : String → ConvOutcome)
    (hroots : rootsIncomparable cfg) (hoc : ∀ c, oc c = .ok) :
    ∀ (cs : List String) (st : LoopState), cs.Nodup →
      (∀ c ∈ cs, isCandB cfg c = true) → Inv1 cfg cs st →
      Inv1 cfg [] (runLoop cfg [] oc st cs) := by
  intro cs
  induction cs with
  | nil => intro st _ _ h; exact h
  | cons c rest ih =>
    intro st hnd hcand hinv
    have hstep := step1_preserves cfg oc hroots st c rest (hoc c)
      (hcand c (List.mem_cons_self _ _)) (List.nodup_cons.mp hnd).1 hinv
    have : runLoop cfg [] oc st (c :: rest)
        = runLoop cfg [] oc (stepCandidate cfg [] oc st c) rest := by
      simp [runLoop]
    rw [this]
    exact ih _ (List.nodup_cons.mp hnd).2
      (fun x hx => hcand x (List.mem_cons_of_mem c hx)) hstep

theorem stepRest_fail_ok (cfg : Cfg) (vals : List String)
    (oc : String → ConvOutcome) (st : LoopState) (c : String)
    (hok : oc c = .ok) :
    (stepRest cfg vals oc st c).fail = st.fail := by
  rw [stepRest]
  by_cases h1 : c ∈ vals
  · simp only [if_pos h1]
  · rw [if_neg h1]
    by_cases h2 : backupPath cfg c ∈ st.fs ∧ finalPathOf cfg.fmt c ∈ st.fs
    · simp only [if_pos h2]
    · rw [if_neg h2, hok]

theorem stepCandidate_fail_ok (cfg : Cfg) (vals : List String)
    (oc : String → ConvOutcome) (st : LoopState) (c : String)
    (hok : oc c = .ok) :
    (stepCandidate cfg vals oc st c).fail = st.fail := by
  cases hl : lookupA st.lock c with
  | some t =>
    by_cases ht : t ≠ "" ∧ t ∈ st.fs
    · simp only [stepCandidate, hl]
      rw [if_pos ht]
    · simp only [stepCandidate, hl]
      rw [if_neg ht]
      exact stepRest_fail_ok cfg vals oc st c hok
  | none =>
    simp only [stepCandidate, hl]
    exact stepRest_fail_ok cfg vals oc st c hok

theorem runLoop_fail_ok (cfg : Cfg) (vals : List String)
    (oc : String → ConvOutcome) (hoc : ∀ c, oc c = .ok) :
    ∀ (cs : List String) (st : LoopState),
      (runLoop cfg vals oc st cs).fail = st.fail := by
  intro cs
  induction cs with
  | nil => intro st; rfl
  | cons c rest ih =>
    intro st
    have : runLoop cfg vals oc st (c :: rest)
        = runLoop cfg vals oc (stepCandidate cfg vals oc st c) rest := by
      simp [runLoop]
    rw [this, ih, stepCandidate_fail_ok cfg vals oc st c (hoc c)]

/-- The disposition of every rediscovered candidate in a state satisfying the
end-of-run invariant: a lock key is `SkipAlreadyConverted`, anything else on
disk that looks like a candidate is a recorded generated file and is
`SkipGeneratedArtifact`; either way the filesystem, the lock, and both
counters are untouched. -/
theorem step2_skip (cfg : Cfg) (oc2 : String → ConvOutcome)
    (lock1 : List (String × String)) (fs1 : List String)
    (hA : ∀ k v, lookupA lock1 k = some v →
      v = finalPathOf cfg.fmt k ∧ v ∈ fs1)
    (hB : ∀ x ∈ fs1, isCandB cfg x = true →
      (∃ v, lookupA lock1 x = some v) ∨ x ∈ valuesOf lock1)
    (st : LoopState) (x : String)
    (hfs : st.fs = fs1) (hlk : st.lock = lock1)
    (hx : x ∈ fs1) (hcand : isCandB cfg x = true) :
    (stepCandidate cfg (valuesOf lock1) oc2 st x).fs = fs1 ∧
    (stepCandidate cfg (valuesOf lock1) oc2 st x).lock = lock1 ∧
    (stepCandidate cfg (valuesOf lock1) oc2 st x).succ = st.succ ∧
    (stepCandidate cfg (valuesOf lock1) oc2 st x).fail = st.fail ∧
    ∃ d, (stepCandidate cfg (valuesOf lock1) oc2 st x).log
          = st.log ++ [(x, d)] ∧
      ((∃ v, lookupA lock1 x = some v) → d = .skipAlready) := by
  cases hl : lookupA lock1 x with
  | some v =>
    obtain ⟨hvf, hvfs⟩ := hA x v hl
    have hvne : v ≠ "" := hvf ▸ finalPathOf_ne_empty cfg.fmt x
    have hcond : v ≠ "" ∧ v ∈ st.fs := ⟨hvne, hfs ▸ hvfs⟩
    simp only [stepCandidate, hlk, hl]
    rw [if_pos hcond]
    exact ⟨hfs, rfl, rfl, rfl, .skipAlready, rfl, fun _ => rfl⟩
  | none =>
    have hval : x ∈ valuesOf lock1 := by
      rcases hB x hx hcand with ⟨v, hv⟩ | hval
      · rw [hv] at hl; cases hl
      · exact hval
    simp only [stepCandidate, hlk, hl, stepRest]
    rw [if_pos hval]
    refine ⟨hfs, rfl, rfl, rfl, .skipGenerated, rfl, ?_⟩
    rintro ⟨v, hv⟩
    exact Option.noConfusion hv

theorem loop2_inv (cfg : Cfg) (oc2 : String → ConvOutcome)
    (lock1 : List (String × String)) (fs1 : List String)
    (hA : ∀ k v, lookupA lock1 k = some v →
      v = finalPathOf cfg.fmt k ∧ v ∈ fs1)
    (hB : ∀ x ∈ fs1, isCandB cfg x = true →
      (∃ v, lookupA lock1 x = some v) ∨ x ∈ valuesOf lock1) :
    ∀ (cs : List String) (st : LoopState),
      (∀ x ∈ cs, x ∈ fs1 ∧ isCandB cfg x = true) →
      st.fs = fs1 → st.lock = lock1 →
      (runLoop cfg (valuesOf lock1) oc2 st cs).succ = st.succ ∧
      (runLoop cfg (valuesOf lock1) oc2 st cs).fail = st.fail ∧
      (∀ x d, (x, d) ∈ (runLoop cfg (valuesOf lock1) oc2 st cs).log →
        (x, d) ∈ st.log ∨
        ((∃ v, lookupA lock1 x = some v) → d = .skipAlready)) := by
  intro cs
  induction cs with
  | nil =>
    intro st _ _ _
    exact ⟨rfl, rfl, fun x d h => Or.inl h⟩
  | cons c rest ih =>
    intro st hmem hfs hlk
    obtain ⟨hc1, hc2⟩ := hmem c (List.mem_cons_self _ _)
    obtain ⟨h1, h2, h3, h4, d0, h5, h6⟩ :=
      step2_skip cfg oc2 lock1 fs1 hA hB st c hfs hlk hc1 hc2
    have hloop : runLoop cfg (valuesOf lock1) oc2 st (c :: rest)
        = runLoop cfg (valuesOf lock1) oc2
            (stepCandidate cfg (valuesOf lock1) oc2 st c) rest := by
      simp [runLoop]
    rw [hloop]
    obtain ⟨g1, g2, g3⟩ := ih (stepCandidate cfg (valuesOf lock1) oc2 st c)
      (fun x hx => hmem x (List.mem_cons_of_mem c hx)) h1 h2
    refine ⟨g1.trans h3, g2.trans h4, ?_⟩
    intro x d hxd
    rcases g3 x d hxd with hin | hgood
    · rw [h5] at hin
      rcases List.mem_append.mp hin with hin2 | hin2
      · exact Or.inl hin2
      · have hx : x = c ∧ d = d0 := by
          have he := List.mem_singleton.mp hin2
          exact ⟨congrArg Prod.fst he, congrArg Prod.snd he⟩
        refine Or.inr ?_
        intro hv
        rw [hx.2]
        exact h6 (hx.1 ▸ hv)
    · exact Or.inr hgood

theorem runMain_fatal_proj (cfg : Cfg) (w : World) (oc : String → ConvOutcome)
    (hin : cfg.input ∉ w.dirs) :
    (runMain cfg w oc).succ = 0 ∧ (runMain cfg w oc).fail = 0 ∧
    (runMain cfg w oc).log = [] ∧
    (runMain cfg w oc).world.dirs = w.dirs ∧
    (runMain cfg w oc).world.fs = w.fs ∧
    (runMain cfg w oc).world.lockFile = w.lockFile := by
  rw [runMain, runMainCore]
  simp [hin]

theorem runMain_empty_proj (cfg : Cfg) (w : World) (oc : String → ConvOutcome)
    (hin : cfg.input ∈ w.dirs) (hcs : discover cfg w.fs = []) :
    (runMain cfg w oc).succ = 0 ∧ (runMain cfg w oc).fail = 0 ∧
    (runMain cfg w oc).log = [] ∧
    (runMain cfg w oc).world.dirs = w.dirs ∧
    (runMain cfg w oc).world.fs = w.fs ∧
    (runMain cfg w oc).world.lockFile = w.lockFile := by
  rw [runMain, runMainCore]
  simp [hin, hcs]

/-- C1 (amended): provided the input and output roots are disjoint (neither
lies inside the other) and the first run started from an empty lock state,
then after one full run in which every executor step succeeded, a second run
over the unchanged filesystem performs zero conversions (no success and no
failure is ever counted, because no candidate is classified `ConvertNow`),
and every candidate converted by the first run that is discovered again by
the second run is classified `SkipAlreadyConverted`. -/
theorem idempotent_second_run (cfg : Cfg) (w : World)
    (oc2 : String → ConvOutcome) (hroots : rootsIncomparable cfg)
    (hnd : w.fs.Nodup) (hlock : w.lockFile = []) :
    (runMain cfg w (fun _ => .ok)).fail = 0 ∧
    (runMain cfg (runMain cfg w (fun _ => .ok)).world oc2).succ = 0 ∧
    (runMain cfg (runMain cfg w (fun _ => .ok)).world oc2).fail = 0 ∧
    (∀ x d, (x, Disp.converted) ∈ (runMain cfg w (fun _ => .ok)).log →
      (x, d) ∈ (runMain cfg (runMain cfg w (fun _ => .ok)).world oc2).log →
      d = Disp.skipAlready) := by
  by_cases hin : cfg.input ∈ w.dirs
  case neg =>
    obtain ⟨f1s, f1f, f1l, f1d, f1fs, f1lk⟩ :=
      runMain_fatal_proj cfg w (fun _ => .ok) hin
    have hin2 : cfg.input ∉ (runMain cfg w (fun _ => .ok)).world.dirs :=
      f1d ▸ hin
    obtain ⟨g1s, g1f, g1l, _, _, _⟩ := runMain_fatal_proj cfg _ oc2 hin2
    refine ⟨f1f, g1s, g1f, ?_⟩
    intro x d hx _
    rw [f1l] at hx
    cases hx
  case pos =>
    by_cases hcs : discover cfg w.fs = []
    · obtain ⟨f1s, f1f, f1l, f1d, f1fs, f1lk⟩ :=
        runMain_empty_proj cfg w (fun _ => .ok) hin hcs
      have hin2 : cfg.input ∈ (runMain cfg w (fun _ => .ok)).world.dirs :=
        f1d ▸ hin
      have hcs2 : discover cfg (runMain cfg w (fun _ => .ok)).world.fs = [] := by
        rw [f1fs]
        exact hcs
      obtain ⟨g1s, g1f, g1l, _, _, _⟩ := runMain_empty_proj cfg _ oc2 hin2 hcs2
      refine ⟨f1f, g1s, g1f, ?_⟩
      intro x d hx _
      rw [f1l] at hx
      cases hx
    · obtain ⟨s1rp, s1lk, s1fs, s1d, s1succ, s1fail, s1log, s1out⟩ :=
        runMain_shape cfg w (fun _ => .ok) hin hcs
      have hinv1 : Inv1 cfg [] (loopStateOf cfg w (fun _ => .ok)) := by
        rw [loopStateOf, hlock]
        exact loop1_inv cfg (fun _ => .ok) hroots (fun _ => rfl)
          (discover cfg w.fs) ⟨w.fs, [], [], 0, 0, []⟩
          (List.Nodup.filter _ hnd)
          (fun c hc => List.of_mem_filter hc)
          ⟨fun k v hkv => Option.noConfusion hkv,
           fun x hx hcand => Or.inl (List.mem_filter.mpr ⟨hx, hcand⟩),
           fun x hx => absurd hx (List.not_mem_nil _)⟩
      have hfail1 : (loopStateOf cfg w (fun _ => .ok)).fail = 0 := by
        rw [loopStateOf, hlock]
        exact runLoop_fail_ok cfg _ _ (fun _ => rfl) _ _
      have hin2 : cfg.input ∈ (runMain cfg w (fun _ => .ok)).world.dirs := by
        rw [s1d]
        exact hin
      by_cases hcs2 : discover cfg (runMain cfg w (fun _ => .ok)).world.fs = []
      · obtain ⟨g1s, g1f, g1l, _, _, _⟩ := runMain_empty_proj cfg _ oc2 hin2 hcs2
        refine ⟨by rw [s1fail]; exact hfail1, g1s, g1f, ?_⟩
        intro x d hx1 hx2
        rw [g1l] at hx2
        cases hx2
      · obtain ⟨t1rp, t1lk, t1fs, t1d, t1succ, t1fail, t1log, t1out⟩ :=
          runMain_shape cfg _ oc2 hin2 hcs2
        have hst2 : loopStateOf cfg (runMain cfg w (fun _ => .ok)).world oc2
            = runLoop cfg (valuesOf (loopStateOf cfg w (fun _ => .ok)).lock) oc2
                ⟨(loopStateOf cfg w (fun _ => .ok)).fs,
                 (loopStateOf cfg w (fun _ => .ok)).lock, [], 0, 0, []⟩
                (discover cfg (loopStateOf cfg w (fun _ => .ok)).fs) := by
          rw [loopStateOf, s1lk, s1fs]
        have hA : ∀ k v,
            lookupA (loopStateOf cfg w (fun _ => .ok)).lock k = some v →
            v = finalPathOf cfg.fmt k ∧ v ∈ (loopStateOf cfg w (fun _ => .ok)).fs :=
          fun k v hkv =>
            ⟨(hinv1.lockOk k v hkv).1, (hinv1.lockOk k v hkv).2.1⟩
        have hB : ∀ x ∈ (loopStateOf cfg w (fun _ => .ok)).fs,
            isCandB cfg x = true →
            (∃ v, lookupA (loopStateOf cfg w (fun _ => .ok)).lock x = some v) ∨
              x ∈ valuesOf (loopStateOf cfg w (fun _ => .ok)).lock := by
          intro x hx hcand
          rcases hinv1.fsOk x hx hcand with hrem | h | h
          · cases hrem
          · exact Or.inl h
          · exact Or.inr h
        have hloop2 := loop2_inv cfg oc2 (loopStateOf cfg w (fun _ => .ok)).lock
          (loopStateOf cfg w (fun _ => .ok)).fs hA hB
          (discover cfg (loopStateOf cfg w (fun _ => .ok)).fs)
          ⟨(loopStateOf cfg w (fun _ => .ok)).fs,
           (loopStateOf cfg w (fun _ => .ok)).lock, [], 0, 0, []⟩
          (fun x hx => ⟨List.mem_of_mem_filter hx, List.of_mem_filter hx⟩)
          rfl rfl
        have hfs2 : discover cfg (runMain cfg w (fun _ => .ok)).world.fs
            = discover cfg (loopStateOf cfg w (fun _ => .ok)).fs := by
          rw [s1fs]
        refine ⟨by rw [s1fail]; exact hfail1, ?_, ?_, ?_⟩
        · rw [t1succ, hst2]
          exact hloop2.1
        · rw [t1fail, hst2]
          exact hloop2.2.1
        · intro x d hx1 hx2
          rw [s1log] at hx1
          obtain ⟨v, hv⟩ := hinv1.logOk x hx1
          rw [t1log, hst2] at hx2
          rcases hloop2.2.2 x d hx2 with hnil | hgood
          · cases hnil
          · exact hgood ⟨v, hv⟩

/-- C1 as stated is false on two counts.  (a) When the output root lies
inside the input root (`input = "assets"`, `output = "assets/backup"`), the
first run completes normally (one conversion, zero failures), the filesystem
is not touched between runs, and yet the second run performs a new
conversion: it re-encodes the backup file it discovers under the input root.
(b) Even with disjoint roots, if the run does not start from an empty lock
state, a stale entry whose recorded target coincides with another candidate's
temp path (`in/X.png -> in/A.png.temp`) is validated during the first run and
invalidated by it, so the second run re-converts `in/X.png`, which the first
run had classified `SkipAlreadyConverted`. -/
theorem idempotence_counterexample :
    ((runMain cfgA wA (fun _ => .ok)).fail = 0 ∧
     (runMain cfgA wA (fun _ => .ok)).succ = 1 ∧
     (runMain cfgA (runMain cfgA wA (fun _ => .ok)).world (fun _ => .ok)).succ
       = 1) ∧
    ((runMain cfgB wB (fun _ => .ok)).fail = 0 ∧
     (runMain cfgB wB (fun _ => .ok)).succ = 1 ∧
     ("in/X.png", Disp.skipAlready) ∈ (runMain cfgB wB (fun _ => .ok)).log ∧
     (runMain cfgB (runMain cfgB wB (fun _ => .ok)).world (fun _ => .ok)).succ
       = 1 ∧
     ("in/X.png", Disp.converted)
       ∈ (runMain cfgB (runMain cfgB wB (fun _ => .ok)).world
            (fun _ => .ok)).log) := by
  exact ⟨⟨by decide, by decide, by decide⟩,
    ⟨by decide, by decide, by decide, by decide, by decide⟩⟩

theorem idempotent_second_run_witness :
    rootsIncomparable cfgC1 ∧ wC1.fs.Nodup ∧ wC1.lockFile = [] ∧
    ((runMain cfgC1 wC1 (fun _ => .ok)).fail = 0 ∧
     (runMain cfgC1 (runMain cfgC1 wC1 (fun _ => .ok)).world
        (fun _ => .ok)).succ = 0 ∧
     (runMain cfgC1 (runMain cfgC1 wC1 (fun _ => .ok)).world
        (fun _ => .ok)).fail = 0 ∧
     (∀ x d,
       (x, Disp.converted) ∈ (runMain cfgC1 wC1 (fun _ => .ok)).log →
       (x, d) ∈ (runMain cfgC1 (runMain cfgC1 wC1 (fun _ => .ok)).world
          (fun _ => .ok)).log →
       d = Disp.skipAlready)) :=
  ⟨⟨by decide, by decide⟩, by decide, rfl,
    idempotent_second_run cfgC1 wC1 (fun _ => .ok)
      ⟨by decide, by decide⟩ (by decide) rfl⟩

end RLCP
